import Mathlib

/-!
Verification model of the codon type-inference core (parser/ast/types/*.cpp,
parser/ast/expr.cpp and the typecheck visitor).  Types are embedded as a
first-order term algebra `Ty`; the mutable type graph (bindings of unbound
type variables) is an explicit state `USt`, and `Type::Unification` (the
undo log) is an explicit stack of (unbound-node, previous-binding) pairs.
Recursive functions over the graph are fuel-bounded so that everything
stays executable.  Each definition is translated from the corresponding C++
source; a definition whose implementation is not part of the sources (only
declared or called there) is modelled from the spec and says so in its doc
comment.
-/

namespace Codon

/-- The type algebra.  `unbound` is a `LinkType` node with `kind == Unbound`
(carrying its id and level); `generic` is a `LinkType` node with
`kind == Generic`; `cls` is `ClassType` (name plus the ordered generic-slot
types); `intStatic`/`strStatic` are `IntStaticType`/`StrStaticType`. -/
inductive Ty where
  | unbound (id : Nat) (level : Nat)
  | generic (id : Nat)
  | cls (name : String) (generics : List Ty)
  | intStatic (value : Int)
  | strStatic (value : String)

mutual

/-- Structural equality test on `Ty` (decidable equality helper). -/
def Ty.beq : Ty → Ty → Bool
  | .unbound i l, .unbound j m => i == j && l == m
  | .generic i, .generic j => i == j
  | .cls n g, .cls n2 g2 => n == n2 && Ty.beqL g g2
  | .intStatic v, .intStatic w => v == w
  | .strStatic v, .strStatic w => v == w
  | _, _ => false

def Ty.beqL : List Ty → List Ty → Bool
  | [], [] => true
  | x :: xs, y :: ys => Ty.beq x y && Ty.beqL xs ys
  | _, _ => false

end

mutual

theorem Ty.beq_iff : ∀ a b : Ty, Ty.beq a b = true ↔ a = b
  | .unbound i l, b => by cases b <;> simp [Ty.beq]
  | .generic i, b => by cases b <;> simp [Ty.beq]
  | .cls n g, b => by
      cases b <;> simp [Ty.beq]
      intro _
      exact Ty.beqL_iff g _
  | .intStatic v, b => by cases b <;> simp [Ty.beq]
  | .strStatic v, b => by cases b <;> simp [Ty.beq]

theorem Ty.beqL_iff : ∀ a b : List Ty, Ty.beqL a b = true ↔ a = b
  | [], b => by cases b <;> simp [Ty.beqL]
  | x :: xs, b => by
      cases b with
      | nil => simp [Ty.beqL]
      | cons y ys =>
          simp only [Ty.beqL, Bool.and_eq_true, List.cons.injEq]
          rw [Ty.beq_iff x y, Ty.beqL_iff xs ys]

end

instance : DecidableEq Ty := fun a b => decidable_of_iff _ (Ty.beq_iff a b)

mutual

/-- Size of a type term (used only for fuel accounting in lemmas). -/
def sizeT : Ty → Nat
  | .unbound _ _ => 1
  | .generic _ => 1
  | .cls _ gs => 1 + sizeTL gs
  | .intStatic _ => 1
  | .strStatic _ => 1

def sizeTL : List Ty → Nat
  | [] => 0
  | t :: ts => 1 + sizeT t + sizeTL ts

end

mutual

/-- The (id, level) pairs of the `unbound` occurrences of a term, in
left-to-right order. -/
def occs : Ty → List (Nat × Nat)
  | .unbound i l => [(i, l)]
  | .generic _ => []
  | .cls _ gs => occsL gs
  | .intStatic _ => []
  | .strStatic _ => []

def occsL : List Ty → List (Nat × Nat)
  | [] => []
  | t :: ts => occs t ++ occsL ts

end

mutual

/-- `true` iff the term contains no `generic` node. -/
def noGeneric : Ty → Bool
  | .unbound _ _ => true
  | .generic _ => false
  | .cls _ gs => noGenericL gs
  | .intStatic _ => true
  | .strStatic _ => true

def noGenericL : List Ty → Bool
  | [] => true
  | t :: ts => noGeneric t && noGenericL ts

end

mutual

/-- Replace every `unbound id level` occurrence by `φ id level` (used to state
"same shape, renamed variables"). -/
def mapU (φ : Nat → Nat → Ty) : Ty → Ty
  | .unbound i l => φ i l
  | .generic i => .generic i
  | .cls n gs => .cls n (mapUL φ gs)
  | .intStatic v => .intStatic v
  | .strStatic v => .strStatic v

def mapUL (φ : Nat → Nat → Ty) : List Ty → List Ty
  | [] => []
  | t :: ts => mapU φ t :: mapUL φ ts

end

/-- The binding state of the type graph: which unbound node ids are linked to
which type (the mutation of a `LinkType` when an unbound becomes a link). -/
abbrev USt := Nat → Option Ty

def emptySt : USt := fun _ => none

def setB (st : USt) (i : Nat) (v : Option Ty) : USt :=
  fun j => if j = i then v else st j

/-- The undo log of `Type::Unification`: a stack of
(unbound-node id, previous binding) pairs, most recent first. -/
abbrev ULog := List (Nat × Option Ty)

/-- Dereference a chain of links (follow bindings until a node that is not a
bound unbound); fuel-bounded to stay total. -/
def resolve : Nat → USt → Ty → Ty
  | 0, _, t => t
  | f + 1, st, Ty.unbound i l =>
      match st i with
      | some t => resolve f st t
      | none => Ty.unbound i l
  | _ + 1, _, t => t

mutual

/-- `Type::unify`, fuel-bounded.  The `ClassType::unify` dispatch is
translated from the source (class.cpp): the `int`/`Int` carve-out, the name
check, the generic-arity check and the `s1 = 3; s1 += s` scoring loop.
Binding an unbound node (`LinkType::unify`, whose definition is not in the
sources) is modelled from the spec: "`Unbound` vs anything: binds the
unbound to the other side (recorded in `undoLog` as a reversible
link-assignment)"; binding scores 0, a static unifies with an equal static
of the same kind (score 1, `IntStaticType::unify`/`StrStaticType::unify`
are also not in the sources), and a generic link only unifies with itself.
Returns (score, new state, new undo log); score -1 is failure, and — as in
the source — a failure deep in a multi-step unification leaves already-made
bindings in place (rolling back is the caller's job, via the log). -/
def unify : Nat → Ty → Ty → USt → ULog → Int × USt × ULog
  | 0, _, _, st, log => (-1, st, log)
  | f + 1, a, b, st, log =>
    let a' := resolve (f + 1) st a
    let b' := resolve (f + 1) st b
    match a', b' with
    | Ty.unbound i _, Ty.unbound j _ =>
        if i = j then (0, st, log)
        else (0, setB st i (some (resolve (f + 1) st b)), (i, st i) :: log)
    | Ty.unbound i _, _ =>
        (0, setB st i (some (resolve (f + 1) st b)), (i, st i) :: log)
    | _, Ty.unbound j _ =>
        (0, setB st j (some (resolve (f + 1) st a)), (j, st j) :: log)
    | Ty.cls n1 g1, Ty.cls n2 g2 =>
        if n1 = "int" ∧ n2 = "Int" then
          unify f (Ty.cls n2 g2) (Ty.cls n1 g1) st log
        else if n1 = "Int" ∧ n2 = "int" then
          match g1 with
          | w :: _ => unify f w (Ty.intStatic 64) st log
          | [] => (-1, st, log)
        else if n1 ≠ n2 then (-1, st, log)
        else if g1.length ≠ g2.length then (-1, st, log)
        else
          match unifyPairs f g1 g2 st log with
          | (some s, st', log') => (3 + s, st', log')
          | (none, st', log') => (-1, st', log')
    | Ty.intStatic v, Ty.intStatic w =>
        if v = w then (1, st, log) else (-1, st, log)
    | Ty.strStatic v, Ty.strStatic w =>
        if v = w then (1, st, log) else (-1, st, log)
    | Ty.generic i, Ty.generic j =>
        if i = j then (0, st, log) else (-1, st, log)
    | _, _ => (-1, st, log)

/-- The generic-list loop of `ClassType::unify`: sequentially unify the
slots pairwise, accumulating the score sum (`some s`); stop at the first
failure (`none`), leaving the mutations made so far in place (the source
`return -1`s out of the loop without unwinding). -/
def unifyPairs : Nat → List Ty → List Ty → USt → ULog → Option Int × USt × ULog
  | 0, _, _, st, log => (none, st, log)
  | _ + 1, [], _, st, log => (some 0, st, log)
  | _ + 1, _ :: _, [], st, log => (some 0, st, log)
  | f + 1, x :: xs, y :: ys, st, log =>
      match unify f x y st log with
      | (s, st', log') =>
        if s = -1 then (none, st', log')
        else
          match unifyPairs f xs ys st' log' with
          | (some s2, st'', log'') => (some (s + s2), st'', log'')
          | (none, st'', log'') => (none, st'', log'')

end

/-- Unwind an undo log (`Type::Unification::undo`): restore each recorded
(node, previous-binding) pair, most recent first. -/
def undoApply (entries : ULog) (st : USt) : USt :=
  entries.foldl (fun s p => setB s p.1 p.2) st

/-- `Type::isStaticType()` on a resolved node: the static classes are the
static types.  (An unbound with a static flag is abstracted by the
`isStaticTy` field of a generic parameter below.) -/
def Ty.isStaticTy : Ty → Bool
  | .intStatic _ => true
  | .strStatic _ => true
  | _ => false

/-- One parameter of a candidate function, as `canCall` consults it:
`(*fn->ast)[si].isValue()` distinguishes value parameters from generics;
a value parameter carries its declared type (`extractFuncArgType`), a
generic parameter carries the corresponding entry of `fn->funcGenerics`
(`extractFuncGeneric`) together with the `expectTyp->isStaticType()` test
result. -/
inductive CParam where
  | value (expect : Ty)
  | generic (isStaticTy : Bool) (expect : Ty)

/-- One entry of `canCall`'s `reordered` vector: the argument type bound to
this slot (`none` for unfilled slots, `*args`/`**kwargs` and defaulted
slots, which the reorder lambda records as `(nullptr, 0)`), plus whether
`wrapExpr` succeeds on it (the `try`/`catch` around the probe). -/
structure CallSlot where
  argType : Option Ty
  wrapOk : Bool

def countGenerics (ps : List CParam) : Nat :=
  ps.countP (fun p => match p with | .value _ => false | .generic _ _ => true)

/-- One iteration of `TypecheckVisitor::canCall`'s scoring loop, for one
parameter/slot pair from state `st`: empty slots are skipped; a generic
parameter bumps `real_gi` and either `continue`s (non-static generic) or
requires a static argument; otherwise the argument is probed against the
expected type with a fresh `Unification` undo log, which is unwound
(`undo.undo()`) only when the unification scored ≥ 0 — exactly as in the
source, where the `else` branch sets `score = -1` without unwinding.
Returns (passed, real_gi increment, new state). -/
def canCallStep (F : Nat) (p : CParam) (slot : CallSlot) (st : USt) :
    Bool × Nat × USt :=
  match p, slot.argType with
  | _, none => (true, 0, st)
  | CParam.value expect, some argTy =>
      if slot.wrapOk then
        match unify F argTy expect st [] with
        | (s, st1, newlog) =>
            if 0 ≤ s then (true, 0, undoApply newlog st1)
            else (false, 0, st1)
      else (false, 0, st)
  | CParam.generic isSt expect, some argTy =>
      if isSt then
        if argTy.isStaticTy then
          if slot.wrapOk then
            match unify F argTy expect st [] with
            | (s, st1, newlog) =>
                if 0 ≤ s then (true, 1, undoApply newlog st1)
                else (false, 1, st1)
          else (false, 1, st)
        else (false, 1, st)
      else (true, 1, st)

/-- The scoring loop of `TypecheckVisitor::canCall` (the `for (; score != -1
&& ai < reordered.size(); ai++)` loop): walk the parameters and the
reordered argument slots in lockstep, running `canCallStep` on each pair
and setting the score to -1 when a step fails.  Returns
(score, real_gi, state). -/
def canCallLoop (F : Nat) :
    List CParam → List CallSlot → Int → Nat → USt → Int × Nat × USt
  | [], _, score, rg, st => (score, rg, st)
  | _ :: _, [], score, rg, st => (score, rg, st)
  | p :: ps, slot :: slots, score, rg, st =>
      if score = -1 then (score, rg, st)
      else
        match canCallStep F p slot st with
        | (ok, rgInc, st1) =>
            canCallLoop F ps slots (if ok then score else -1) (rg + rgInc) st1

/-- `TypecheckVisitor::canCall`: run the scoring loop on the outcome of
`reorderNamedArgs` (whose result is taken as input here — `score0` is the
score its callback produced and `slots` is `reordered`; `reorderNamedArgs`
itself is declared but not defined in the sources), then award the final
`score += (real_gi == fn->funcGenerics.size())` bonus on success. -/
def canCall (F : Nat) (params : List CParam) (slots : List CallSlot)
    (score0 : Int) (st : USt) : Int × USt :=
  match canCallLoop F params slots score0 0 st with
  | (score, rg, st') =>
      (if 0 ≤ score then score + (if rg = countGenerics params then 1 else 0)
       else score, st')

/-- An overload candidate as it reaches `findMatchingMethods`: the method
(after `ctx->instantiate`) bundled with the per-call-site reorder outcome
consumed by `canCall`. -/
structure Candidate where
  params : List CParam
  slots : List CallSlot
  score0 : Int

/-- `TypecheckVisitor::findMatchingMethods`: probe each candidate in order
with `canCall` (threading the type-graph state through the probes, as the
shared context does) and keep, in order, every candidate whose score is not
-1. -/
def findMatchingMethods (F : Nat) :
    List Candidate → USt → List Candidate × USt
  | [], st => ([], st)
  | m :: ms, st =>
      let r := canCall F m.params m.slots m.score0 st
      let rest := findMatchingMethods F ms r.2
      (if r.1 ≠ -1 then m :: rest.1 else rest.1, rest.2)

/-- Modelled from the spec: `ctx->findMethod` is declared but not defined in
the sources.  The spec's selection rule ("among candidates with score ≥ 0,
the *last* declared match wins"), combined with `findBestMethod` returning
`m[0]` of `findMatchingMethods`' result, requires the candidate list handed
to `findMatchingMethods` to be ordered latest declaration first;
`findMethod` is therefore modelled as reversing the declaration-ordered
overload list. -/
def findMethod (decls : List Candidate) : List Candidate := decls.reverse

/-- `TypecheckVisitor::findBestMethod`: `m.empty() ? nullptr : m[0]` over
`findMatchingMethods (findMethod ...)`. -/
def findBestMethod (F : Nat) (decls : List Candidate) (st : USt) :
    Option Candidate :=
  (findMatchingMethods F (findMethod decls) st).1.head?

/-- The scores produced by `canCall` for each candidate, in the order the
candidates are probed (state threaded exactly as in `findMatchingMethods`). -/
def runScores (F : Nat) : List Candidate → USt → List Int
  | [], _ => []
  | m :: ms, st =>
      (canCall F m.params m.slots m.score0 st).1 ::
        runScores F ms (canCall F m.params m.slots m.score0 st).2

/-- The probe scores indexed in declaration order (the probes run newest
first; reversing their score list realigns them with the declarations). -/
def declScores (F : Nat) (decls : List Candidate) (st : USt) : List Int :=
  (runScores F (findMethod decls) st).reverse

mutual

/-- `Type::hasUnbounds(includeGenerics)` on the term algebra: the
`ClassType` case is from class.cpp (any generic slot has unbounds); the
`LinkType` case is not in the sources and is modelled from the parameter's
meaning: an `Unbound` node always counts, a `Generic` link only when
`includeGenerics` is set. -/
def Ty.hasUnboundsT (includeGenerics : Bool) : Ty → Bool
  | .unbound _ _ => true
  | .generic _ => includeGenerics
  | .cls _ gs => Ty.hasUnboundsTL includeGenerics gs
  | .intStatic _ => false
  | .strStatic _ => false

def Ty.hasUnboundsTL (includeGenerics : Bool) : List Ty → Bool
  | [] => false
  | t :: ts =>
      Ty.hasUnboundsT includeGenerics t || Ty.hasUnboundsTL includeGenerics ts

end

/-- A `FuncType` as `FuncType::hasUnbounds` consults it: its own generics,
the optional enclosing parent type, the parameter types (`getArgTypes()`,
the members of hidden generic 0) and the return type (`getRetType()`,
hidden generic 1). -/
structure FuncT where
  funcGenerics : List Ty
  funcParent : Option Ty
  argTypes : List Ty
  retType : Ty

/-- `FuncType::hasUnbounds` (function.cpp), line for line: function generics,
then `funcParent`, then — under the comment "Important: return type unbounds
are not important, so skip them." — the parameter types, and finally
`return getRetType()->hasUnbounds(includeGenerics);`. -/
def FuncT.hasUnbounds (f : FuncT) (includeGenerics : Bool) : Bool :=
  if Ty.hasUnboundsTL includeGenerics f.funcGenerics then true
  else if (match f.funcParent with
           | some p => Ty.hasUnboundsT includeGenerics p
           | none => false) then true
  else if Ty.hasUnboundsTL includeGenerics f.argTypes then true
  else Ty.hasUnboundsT includeGenerics f.retType

/-- The claim's (and the source comment's) reading of
`FuncType::hasUnbounds`: true iff some reachable subterm *other than the
return type* contains an unbound — the return type is not consulted.  This
follows the spec's words and matches the sibling `FuncType::getUnbounds`,
which does skip the return type. -/
def FuncT.hasUnboundsSpec (f : FuncT) (includeGenerics : Bool) : Bool :=
  Ty.hasUnboundsTL includeGenerics f.funcGenerics
  || (match f.funcParent with
      | some p => Ty.hasUnboundsT includeGenerics p
      | none => false)
  || Ty.hasUnboundsTL includeGenerics f.argTypes

/-- `UnionType::MAX_UNION` (union.h). -/
def MAX_UNION : Nat := 256

/-- A `UnionType`: the pending member list and whether the union has been
sealed (union.h declares `pendingTypes`, `isSealed()` and `seal()`). -/
structure UnionT where
  pendingTypes : List Ty
  sealed : Bool
  deriving DecidableEq

/-- Modelled from the spec: `UnionType::addType` is declared in union.h but
its definition is not in the sources.  Per the spec, an unsealed union is a
"deduplicated, growable set of up to `MAX_UNION` (256) candidate class
types (`pendingTypes`)" that "becomes immutable ('sealed')" afterwards, and
"`seal()` followed by any further `addType` must fail/be a no-op";
exceeding `MAX_UNION` is a fatal error.  `none` models failure. -/
def UnionT.addType (u : UnionT) (t : Ty) : Option UnionT :=
  if u.sealed then none
  else if t ∈ u.pendingTypes then some u
  else if u.pendingTypes.length < MAX_UNION then
    some { u with pendingTypes := u.pendingTypes ++ [t] }
  else none

/-- `UnionType::seal` — modelled from the spec: marks the union immutable. -/
def UnionT.seal (u : UnionT) : UnionT := { u with sealed := true }

/-- Two's-complement wrap-around of a mathematical integer into the value
range of `int64_t` (the arithmetic type `divMod` computes with). -/
def wrap64 (x : Int) : Int := (x + 2 ^ 63) % 2 ^ 64 - 2 ^ 63

inductive StaticError where
  | STATIC_DIV_ZERO
  deriving DecidableEq

/-- `divMod` (the static `//`/`%` evaluator of the typecheck visitor):
`E(Error::STATIC_DIV_ZERO, ...)` on a zero divisor; with `pythonCompat` the
Python floor semantics (`d = a / b; m = a - d * b; if (m && ((b ^ m) < 0))
{ m += b; d -= 1; }`), otherwise the C truncating `{a / b, a % b}`.  The
`int64_t` divisions are wrapped (`wrap64`), which only matters for the
single overflowing case `a = -2^63, b = -1`. -/
def divMod (pythonCompat : Bool) (a b : Int) :
    Except StaticError (Int × Int) :=
  if b = 0 then .error .STATIC_DIV_ZERO
  else if pythonCompat then
    let d := wrap64 (Int.tdiv a b)
    let m := a - wrap64 (d * b)
    if m ≠ 0 ∧ ((b < 0 ∧ 0 < m) ∨ (0 < b ∧ m < 0)) then .ok (d - 1, m + b)
    else .ok (d, m)
  else .ok (wrap64 (Int.tdiv a b), Int.tmod a b)

/-- The expression forms `CallExpr::validate` distinguishes: `StarExpr`,
`KeywordStarExpr`, `EllipsisExpr`, anything else. -/
inductive ArgKind where
  | star
  | kwstar
  | ellipsisK
  | plain
  deriving DecidableEq

/-- One `CallExpr::Arg`: optional keyword name (empty string = unnamed) and
the shape of its value expression. -/
structure CallArg where
  name : String
  kind : ArgKind

inductive CallError where
  | CALL_NAME_ORDER
  | CALL_NAME_STAR
  | CALL_ELLIPSIS
  deriving DecidableEq

/-- The loop of `CallExpr::validate` (expr.cpp): walk the arguments with the
`namesStarted`/`foundEllipsis` flags, raising (returning) the first error
the source's three checks hit; the flag updates mirror the source's
`foundEllipsis |=` / `namesStarted |=`.  The method is `const`, so it never
modifies the call. -/
def validateLoop : List CallArg → Bool → Bool → Option CallError
  | [], _, _ => none
  | a :: rest, namesStarted, foundEllipsis =>
      if a.name = "" ∧ namesStarted = true ∧
          ¬(a.kind = .kwstar ∨ a.kind = .ellipsisK) then
        some .CALL_NAME_ORDER
      else if a.name ≠ "" ∧ (a.kind = .star ∨ a.kind = .kwstar) then
        some .CALL_NAME_STAR
      else if a.kind = .ellipsisK ∧ foundEllipsis = true then
        some .CALL_ELLIPSIS
      else
        validateLoop rest (namesStarted || decide (a.name ≠ ""))
          (foundEllipsis || decide (a.kind = .ellipsisK))

/-- `CallExpr::validate`. -/
def validate (args : List CallArg) : Option CallError :=
  validateLoop args false false

mutual

/-- `ClassType::generalize` (class.cpp) copies the node, generalizing each
generic slot recursively; the `LinkType` case (not in the sources) is
modelled from the spec: an `Unbound` whose level is ≥ `atLevel` is marked
generic (kind change, same id), everything else is kept. -/
def generalize (atLevel : Nat) : Ty → Ty
  | .unbound i l => if atLevel ≤ l then .generic i else .unbound i l
  | .generic i => .generic i
  | .cls n gs => .cls n (generalizeL atLevel gs)
  | .intStatic v => .intStatic v
  | .strStatic v => .strStatic v

def generalizeL (atLevel : Nat) : List Ty → List Ty
  | [] => []
  | t :: ts => generalize atLevel t :: generalizeL atLevel ts

end

mutual

/-- `ClassType::instantiate` (class.cpp) copies the node, instantiating each
generic slot recursively and threading the fresh-variable counter
(`unboundCount`) and the substitution cache; the `LinkType` case (not in
the sources) is modelled from the spec: a `Generic` link becomes a fresh
`Unbound` at the new level, with the cache (keyed by the generic's id)
reused so repeated occurrences of the same generic alias the same fresh
variable; an existing `Unbound` is kept.  The cache maps a generic id to
the id of the fresh unbound allocated for it. -/
def instantiate (atLevel : Nat) :
    Ty → Nat → (Nat → Option Nat) → Ty × Nat × (Nat → Option Nat)
  | .unbound i l, c, cache => (.unbound i l, c, cache)
  | .generic i, c, cache =>
      match cache i with
      | some j => (.unbound j atLevel, c, cache)
      | none =>
          (.unbound c atLevel, c + 1, fun x => if x = i then some c else cache x)
  | .cls n gs, c, cache =>
      match instantiateL atLevel gs c cache with
      | (gs2, c2, cache2) => (.cls n gs2, c2, cache2)
  | .intStatic v, c, cache => (.intStatic v, c, cache)
  | .strStatic v, c, cache => (.strStatic v, c, cache)

def instantiateL (atLevel : Nat) :
    List Ty → Nat → (Nat → Option Nat) → List Ty × Nat × (Nat → Option Nat)
  | [], c, cache => ([], c, cache)
  | t :: ts, c, cache =>
      match instantiate atLevel t c cache with
      | (t2, c2, cache2) =>
          match instantiateL atLevel ts c2 cache2 with
          | (ts2, c3, cache3) => (t2 :: ts2, c3, cache3)

end

/-! ### Auxiliary predicates used to state the claims -/

/-- An argument that triggers the `CALL_NAME_ORDER` check when it appears
after a named argument: unnamed and neither a keyword-star nor an
ellipsis. -/
def isBadUnnamed (b : CallArg) : Bool :=
  decide (b.name = "") && !(decide (b.kind = ArgKind.kwstar)) &&
    !(decide (b.kind = ArgKind.ellipsisK))

def existsBadUnnamed (args : List CallArg) : Bool := args.any isBadUnnamed

/-- Some named argument is followed (strictly later) by an unnamed argument
that is neither a keyword-star nor an ellipsis. -/
def badUnnamedAfterNamed : List CallArg → Bool
  | [] => false
  | a :: rest =>
      (decide (a.name ≠ "") && existsBadUnnamed rest) || badUnnamedAfterNamed rest

/-- Some named argument whose value is a star or keyword-star expression. -/
def namedStar (args : List CallArg) : Bool :=
  args.any (fun a =>
    decide (a.name ≠ "") &&
      (decide (a.kind = ArgKind.star) || decide (a.kind = ArgKind.kwstar)))

def countEllipsis (args : List CallArg) : Nat :=
  args.countP (fun a => decide (a.kind = ArgKind.ellipsisK))

/-- Whether one reordered argument slot passes `canCall`'s probe when run
from the state `st`: empty slots and non-static generics always pass; value
parameters and static generics pass when `wrapExpr` succeeds and the
unification score is not -1 (for a static generic the argument must itself
be a static type). -/
def specArgOk (F : Nat) (st : USt) : CParam → CallSlot → Bool
  | CParam.value expect, slot =>
      match slot.argType with
      | none => true
      | some argTy => slot.wrapOk && decide (0 ≤ (unify F argTy expect st []).1)
  | CParam.generic isSt expect, slot =>
      match slot.argType with
      | none => true
      | some argTy =>
          if isSt then
            argTy.isStaticTy && slot.wrapOk &&
              decide (0 ≤ (unify F argTy expect st []).1)
          else true

/-- The number of generic parameters that received an argument — the value
`real_gi` reaches when the loop runs to completion. -/
def realGiOf : List CParam → List CallSlot → Nat
  | p :: ps, slot :: slots =>
      (match p, slot.argType with
       | CParam.generic _ _, some _ => 1
       | _, _ => 0) + realGiOf ps slots
  | _, _ => 0

/-- The sequence of pairwise generic-slot unification scores, stated the way
the spec describes `ClassType` unification: unify the slots pairwise in
order (threading the state), collecting each score; `none` as soon as some
pair fails. -/
def pairScores : Nat → List Ty → List Ty → USt → ULog →
    Option (List Int) × USt × ULog
  | 0, _, _, st, log => (none, st, log)
  | _ + 1, [], _, st, log => (some [], st, log)
  | _ + 1, _ :: _, [], st, log => (some [], st, log)
  | f + 1, x :: xs, y :: ys, st, log =>
      match unify f x y st log with
      | (s, st1, log1) =>
        if s = -1 then (none, st1, log1)
        else
          match pairScores f xs ys st1 log1 with
          | (some l, st2, log2) => (some (s :: l), st2, log2)
          | (none, st2, log2) => (none, st2, log2)

mutual

/-- A concrete (fully resolved) term: no unbound type variables anywhere. -/
def isConcrete : Ty → Bool
  | .unbound _ _ => false
  | .generic _ => true
  | .cls _ gs => isConcreteL gs
  | .intStatic _ => true
  | .strStatic _ => true

def isConcreteL : List Ty → Bool
  | [] => true
  | t :: ts => isConcrete t && isConcreteL ts

end

/-! ### Theorems -/

theorem validateLoop_isSome (args : List CallArg) : ∀ ns fe : Bool,
    (validateLoop args ns fe).isSome =
      ((ns && existsBadUnnamed args) || badUnnamedAfterNamed args ||
        namedStar args ||
        decide ((if fe then 1 else 2) ≤ countEllipsis args)) := by
  induction args with
  | nil =>
      intro ns fe
      cases ns <;> cases fe <;>
        simp [validateLoop, existsBadUnnamed, badUnnamedAfterNamed, namedStar,
          countEllipsis]
  | cons a rest ih =>
      intro ns fe
      rcases a with ⟨nm, k⟩
      by_cases hn : nm = "" <;> cases k <;> cases ns <;> cases fe <;>
        simp [validateLoop, isBadUnnamed, existsBadUnnamed, badUnnamedAfterNamed,
          namedStar, countEllipsis, hn, ih, List.countP_cons]

theorem existsBadUnnamed_iff (args : List CallArg) :
    existsBadUnnamed args = true ↔
      ∃ mid b post, args = mid ++ b :: post ∧ b.name = "" ∧
        b.kind ≠ ArgKind.kwstar ∧ b.kind ≠ ArgKind.ellipsisK := by
  constructor
  · intro h
    rcases List.any_eq_true.mp h with ⟨b, hb, hbad⟩
    rcases List.append_of_mem hb with ⟨mid, post, rfl⟩
    simp only [isBadUnnamed, Bool.and_eq_true, Bool.not_eq_true',
      decide_eq_true_eq, decide_eq_false_iff_not] at hbad
    exact ⟨mid, b, post, rfl, hbad.1.1, hbad.1.2, hbad.2⟩
  · rintro ⟨mid, b, post, rfl, h1, h2, h3⟩
    refine List.any_eq_true.mpr ⟨b, by simp, ?_⟩
    simp [isBadUnnamed, h1, h2, h3]

theorem badUnnamedAfterNamed_iff (args : List CallArg) :
    badUnnamedAfterNamed args = true ↔
      ∃ pre a mid b post, args = pre ++ a :: (mid ++ b :: post) ∧
        a.name ≠ "" ∧ b.name = "" ∧
        b.kind ≠ ArgKind.kwstar ∧ b.kind ≠ ArgKind.ellipsisK := by
  induction args with
  | nil => simp [badUnnamedAfterNamed]
  | cons a rest ih =>
      simp only [badUnnamedAfterNamed, Bool.or_eq_true, Bool.and_eq_true,
        decide_eq_true_eq, ih]
      constructor
      · rintro (⟨ha, hb⟩ | ⟨pre, x, mid, b, post, rfl, hx, hb1, hb2, hb3⟩)
        · rcases (existsBadUnnamed_iff rest).mp hb with ⟨mid, b, post, rfl, h1, h2, h3⟩
          exact ⟨[], a, mid, b, post, rfl, ha, h1, h2, h3⟩
        · exact ⟨a :: pre, x, mid, b, post, rfl, hx, hb1, hb2, hb3⟩
      · rintro ⟨pre, x, mid, b, post, heq, hx, hb1, hb2, hb3⟩
        cases pre with
        | nil =>
            simp only [List.nil_append, List.cons.injEq] at heq
            refine Or.inl ⟨heq.1 ▸ hx, (existsBadUnnamed_iff rest).mpr
              ⟨mid, b, post, heq.2, hb1, hb2, hb3⟩⟩
        | cons p ps =>
            simp only [List.cons_append, List.cons.injEq] at heq
            exact Or.inr ⟨ps, x, mid, b, post, heq.2, hx, hb1, hb2, hb3⟩

/-- C10: `CallExpr::validate` raises an error if and only if the argument
list contains an unnamed argument after a named one (unless that argument
is a keyword-star or an ellipsis), a named argument whose value is a star
or keyword-star expression, or more than one ellipsis argument.  (The
method is `const`, so the call is never modified; the embedding is a pure
function.) -/
theorem C10_validate_error_iff (args : List CallArg) :
    validate args ≠ none ↔
      ((∃ pre a mid b post, args = pre ++ a :: (mid ++ b :: post) ∧
          a.name ≠ "" ∧ b.name = "" ∧
          b.kind ≠ ArgKind.kwstar ∧ b.kind ≠ ArgKind.ellipsisK)
       ∨ (∃ a ∈ args, a.name ≠ "" ∧ (a.kind = ArgKind.star ∨ a.kind = ArgKind.kwstar))
       ∨ 2 ≤ countEllipsis args) := by
  rw [← Option.isSome_iff_ne_none, validate, validateLoop_isSome]
  simp only [Bool.false_and, Bool.false_or, Bool.or_eq_true, decide_eq_true_eq,
    if_false]
  rw [badUnnamedAfterNamed_iff]
  constructor
  · rintro ((h | h) | h)
    · exact Or.inl h
    · refine Or.inr (Or.inl ?_)
      rcases List.any_eq_true.mp h with ⟨b, hb, hcond⟩
      simp only [Bool.and_eq_true, Bool.or_eq_true, beq_iff_eq, decide_eq_true_eq]
        at hcond
      exact ⟨b, hb, hcond.1, hcond.2⟩
    · exact Or.inr (Or.inr h)
  · rintro (h | ⟨b, hb, h1, h2⟩ | h)
    · exact Or.inl (Or.inl h)
    · refine Or.inl (Or.inr (List.any_eq_true.mpr ⟨b, hb, ?_⟩))
      simp only [Bool.and_eq_true, Bool.or_eq_true, beq_iff_eq, decide_eq_true_eq]
      exact ⟨h1, h2⟩
    · exact Or.inr h

/-- C6: the code of `FuncType::hasUnbounds` *does* consult the return type,
contradicting both the claim and the source's own comment ("Important:
return type unbounds are not important, so skip them."): on a function with
no unbounds anywhere except in its return type, it returns `true` while the
specified behaviour is `false`. -/
theorem C6_hasUnbounds_consults_return_type :
    FuncT.hasUnbounds ⟨[], none, [Ty.cls "int" []], Ty.unbound 0 0⟩ false = true ∧
    FuncT.hasUnboundsSpec ⟨[], none, [Ty.cls "int" []], Ty.unbound 0 0⟩ false
      = false := by
  exact ⟨rfl, rfl⟩

/-- C7: an unsealed union only grows — `addType` never removes or reorders
existing pending members (the old list is a prefix of the new one) and
preserves the `MAX_UNION` bound; after `seal()`, any further `addType`
fails. -/
theorem C7_union_monotone (u u' : UnionT) (t : Ty) :
    (UnionT.addType u t = some u' →
        (∃ rest, u'.pendingTypes = u.pendingTypes ++ rest) ∧
        (u.pendingTypes.length ≤ MAX_UNION →
          u'.pendingTypes.length ≤ MAX_UNION)) ∧
    UnionT.addType (UnionT.seal u) t = none := by
  constructor
  · intro h
    unfold UnionT.addType at h
    split at h
    · exact absurd h (by simp)
    · split at h
      · cases h
        exact ⟨⟨[], by simp⟩, fun hl => hl⟩
      · split at h
        · cases h
          refine ⟨⟨[t], rfl⟩, fun _ => ?_⟩
          simp only [List.length_append, List.length_cons, List.length_nil]
          omega
        · exact absurd h (by simp)
  · simp [UnionT.addType, UnionT.seal]

/-- Closed witness for C7 at a concrete union and member. -/
theorem C7_union_monotone_witness :
    (UnionT.addType ⟨[Ty.cls "int" []], false⟩ (Ty.cls "str" []) =
        some ⟨[Ty.cls "int" [], Ty.cls "str" []], false⟩) ∧
    (∃ rest, ([Ty.cls "int" [], Ty.cls "str" []] : List Ty) =
        [Ty.cls "int" []] ++ rest) ∧
    ([Ty.cls "int" [], Ty.cls "str" []] : List Ty).length ≤ MAX_UNION ∧
    UnionT.addType (UnionT.seal ⟨[Ty.cls "int" []], false⟩) (Ty.cls "str" [])
      = none :=
  ⟨by decide,
   ((C7_union_monotone ⟨[Ty.cls "int" []], false⟩
      ⟨[Ty.cls "int" [], Ty.cls "str" []], false⟩ (Ty.cls "str" [])).1
      (by decide)).1,
   ((C7_union_monotone ⟨[Ty.cls "int" []], false⟩
      ⟨[Ty.cls "int" [], Ty.cls "str" []], false⟩ (Ty.cls "str" [])).1
      (by decide)).2 (by decide),
   (C7_union_monotone ⟨[Ty.cls "int" []], false⟩
      ⟨[Ty.cls "int" [], Ty.cls "str" []], false⟩ (Ty.cls "str" [])).2⟩

/-! ### Undo-log infrastructure -/

theorem setB_setB_cancel (st : USt) (i : Nat) (v : Option Ty) :
    setB (setB st i v) i (st i) = st := by
  funext j
  simp only [setB]
  by_cases h : j = i <;> simp [h]

theorem undoApply_nil (st : USt) : undoApply [] st = st := rfl

theorem undoApply_cons (i : Nat) (p : Option Ty) (rest : ULog) (st : USt) :
    undoApply ((i, p) :: rest) st = undoApply rest (setB st i p) := rfl

theorem undoApply_append (l1 l2 : ULog) (st : USt) :
    undoApply (l1 ++ l2) st = undoApply l2 (undoApply l1 st) := by
  simp [undoApply, List.foldl_append]

/-- Every run of `unify` only pushes onto the undo log, and unwinding the
pushed entries (most recent first) restores the state exactly as it was —
whether the unification succeeded or failed. -/
theorem unify_restore : ∀ f : Nat,
    (∀ a b st log, ∃ new, (unify f a b st log).2.2 = new ++ log ∧
        undoApply new (unify f a b st log).2.1 = st) ∧
    (∀ l1 l2 st log, ∃ new, (unifyPairs f l1 l2 st log).2.2 = new ++ log ∧
        undoApply new (unifyPairs f l1 l2 st log).2.1 = st) := by
  intro f
  induction f with
  | zero =>
      constructor
      · intro a b st log
        exact ⟨[], rfl, rfl⟩
      · intro l1 l2 st log
        exact ⟨[], rfl, rfl⟩
  | succ f ih =>
      constructor
      · intro a b st log
        simp only [unify]
        cases hA : resolve (f + 1) st a <;> cases hB : resolve (f + 1) st b
        case unbound.unbound i l j m =>
            by_cases hij : i = j
            · simp only [hij, if_pos rfl]
              exact ⟨[], rfl, rfl⟩
            · simp only [if_neg hij]
              exact ⟨[(i, st i)], rfl, setB_setB_cancel st i _⟩
        case unbound.generic i l j =>
            exact ⟨[(i, st i)], rfl, setB_setB_cancel st i _⟩
        case unbound.cls i l n2 gs2 =>
            exact ⟨[(i, st i)], rfl, setB_setB_cancel st i _⟩
        case unbound.intStatic i l w =>
            exact ⟨[(i, st i)], rfl, setB_setB_cancel st i _⟩
        case unbound.strStatic i l w =>
            exact ⟨[(i, st i)], rfl, setB_setB_cancel st i _⟩
        case generic.unbound i j m =>
            exact ⟨[(j, st j)], rfl, setB_setB_cancel st j _⟩
        case cls.unbound n gs j m =>
            exact ⟨[(j, st j)], rfl, setB_setB_cancel st j _⟩
        case intStatic.unbound v j m =>
            exact ⟨[(j, st j)], rfl, setB_setB_cancel st j _⟩
        case strStatic.unbound v j m =>
            exact ⟨[(j, st j)], rfl, setB_setB_cancel st j _⟩
        case generic.generic i j =>
            by_cases hij : i = j
            · simp only [hij, if_pos rfl]
              exact ⟨[], rfl, rfl⟩
            · simp only [if_neg hij]
              exact ⟨[], rfl, rfl⟩
        case cls.cls n gs n2 gs2 =>
            by_cases h1 : n = "int" ∧ n2 = "Int"
            · simp only [if_pos h1]
              exact ih.1 _ _ st log
            · simp only [if_neg h1]
              by_cases h2 : n = "Int" ∧ n2 = "int"
              · simp only [if_pos h2]
                cases gs with
                | nil => exact ⟨[], rfl, rfl⟩
                | cons wd rest => exact ih.1 _ _ st log
              · simp only [if_neg h2]
                by_cases h3 : n ≠ n2
                · simp only [if_pos h3]
                  exact ⟨[], rfl, rfl⟩
                · simp only [if_neg h3]
                  by_cases h4 : gs.length ≠ gs2.length
                  · simp only [if_pos h4]
                    exact ⟨[], rfl, rfl⟩
                  · simp only [if_neg h4]
                    obtain ⟨new, hlog, hundo⟩ := ih.2 gs gs2 st log
                    rcases hres : unifyPairs f gs gs2 st log with ⟨r, st2, log2⟩
                    rw [hres] at hlog hundo
                    cases r with
                    | some s => exact ⟨new, hlog, hundo⟩
                    | none => exact ⟨new, hlog, hundo⟩
        case intStatic.intStatic v w =>
            by_cases hvw : v = w
            · simp only [if_pos hvw]
              exact ⟨[], rfl, rfl⟩
            · simp only [if_neg hvw]
              exact ⟨[], rfl, rfl⟩
        case strStatic.strStatic v w =>
            by_cases hvw : v = w
            · simp only [if_pos hvw]
              exact ⟨[], rfl, rfl⟩
            · simp only [if_neg hvw]
              exact ⟨[], rfl, rfl⟩
        all_goals exact ⟨[], rfl, rfl⟩
      · intro l1 l2 st log
        match l1, l2 with
        | [], _ => exact ⟨[], rfl, rfl⟩
        | _ :: _, [] => exact ⟨[], rfl, rfl⟩
        | x :: xs, y :: ys =>
          simp only [unifyPairs]
          obtain ⟨n1, hn1log, hn1undo⟩ := ih.1 x y st log
          rcases h1 : unify f x y st log with ⟨s, st1, log1⟩
          rw [h1] at hn1log hn1undo
          by_cases hs : s = -1
          · simp only [if_pos hs]
            exact ⟨n1, hn1log, hn1undo⟩
          · simp only [if_neg hs]
            obtain ⟨n2, hn2log, hn2undo⟩ := ih.2 xs ys st1 log1
            rcases h2 : unifyPairs f xs ys st1 log1 with ⟨r2, st2, log2⟩
            rw [h2] at hn2log hn2undo
            have hl2 : log2 = n2 ++ log1 := hn2log
            have hl1 : log1 = n1 ++ log := hn1log
            have hu2 : undoApply n2 st2 = st1 := hn2undo
            have hu1 : undoApply n1 st1 = st := hn1undo
            have hcomb : log2 = (n2 ++ n1) ++ log := by
              rw [hl2, hl1, List.append_assoc]
            have hundo : undoApply (n2 ++ n1) st2 = st := by
              rw [undoApply_append, hu2, hu1]
            cases r2 with
            | some s2 => exact ⟨n2 ++ n1, hcomb, hundo⟩
            | none => exact ⟨n2 ++ n1, hcomb, hundo⟩

/-! ### C9: divMod -/

theorem wrap64_eq_self (x : Int) (h1 : -(2 ^ 63) ≤ x) (h2 : x < 2 ^ 63) :
    wrap64 x = x := by
  unfold wrap64
  omega

theorem tmod_neg_left (a b : Int) : (-a).tmod b = -(a.tmod b) := by
  rw [Int.tmod_def, Int.tmod_def, Int.neg_tdiv]
  ring

theorem natAbs_tmod_lt (a b : Int) (hb : b ≠ 0) :
    (a.tmod b).natAbs < b.natAbs := by
  rcases le_or_lt 0 b with hbp | hbn
  · have hbp' : 0 < b := lt_of_le_of_ne hbp (Ne.symm hb)
    rcases le_or_lt 0 a with hap | han
    · have h1 := Int.tmod_nonneg b hap
      have h2 := Int.tmod_lt_of_pos a hbp'
      omega
    · have h1 := Int.tmod_nonneg b (by omega : (0:Int) ≤ -a)
      have h2 := Int.tmod_lt_of_pos (-a) hbp'
      have h3 := tmod_neg_left a b
      omega
  · have h0 : a.tmod b = a.tmod (-(-b)) := by rw [neg_neg]
    have h0' : a.tmod (-(-b)) = a.tmod (-b) := Int.tmod_neg a (-b)
    have hbn' : (0:Int) < -b := by omega
    rcases le_or_lt 0 a with hap | han
    · have h1 := Int.tmod_nonneg (-b) hap
      have h2 := Int.tmod_lt_of_pos a hbn'
      omega
    · have h1 := Int.tmod_nonneg (-b) (by omega : (0:Int) ≤ -a)
      have h2 := Int.tmod_lt_of_pos (-a) hbn'
      have h3 := tmod_neg_left a (-b)
      omega

theorem bq_range (a b : Int) (hb : b ≠ 0) :
    (0 ≤ a → 0 ≤ b * (a.tdiv b) ∧ b * (a.tdiv b) ≤ a) ∧
    (a ≤ 0 → a ≤ b * (a.tdiv b) ∧ b * (a.tdiv b) ≤ 0) := by
  have hid := Int.tdiv_add_tmod a b
  constructor
  · intro hap
    have hm := Int.tmod_nonneg b hap
    refine ⟨?_, by omega⟩
    rcases le_or_lt 0 b with hbp | hbn
    · exact mul_nonneg hbp (Int.tdiv_nonneg hap hbp)
    · have hq := Int.tdiv_nonpos hap (le_of_lt hbn)
      calc (0:Int) ≤ (-b) * (-(a.tdiv b)) := mul_nonneg (by omega) (by omega)
        _ = b * (a.tdiv b) := by ring
  · intro han
    have hm : a.tmod b ≤ 0 := by
      have h1 := Int.tmod_nonneg b (by omega : (0:Int) ≤ -a)
      have h3 := tmod_neg_left a b
      omega
    refine ⟨by omega, ?_⟩
    have hq : (-a).tdiv b = -(a.tdiv b) := Int.neg_tdiv a b
    rcases le_or_lt 0 b with hbp | hbn
    · have h1 := Int.tdiv_nonneg (by omega : (0:Int) ≤ -a) hbp
      have h2 : a.tdiv b ≤ 0 := by omega
      calc b * (a.tdiv b) = -(b * (-(a.tdiv b))) := by ring
        _ ≤ 0 := by
            have := mul_nonneg hbp (by omega : (0:Int) ≤ -(a.tdiv b))
            omega
    · have h1 := Int.tdiv_nonpos (by omega : (0:Int) ≤ -a) (le_of_lt hbn)
      have h2 : 0 ≤ a.tdiv b := by omega
      calc b * (a.tdiv b) = -((-b) * (a.tdiv b)) := by ring
        _ ≤ 0 := by
            have := mul_nonneg (by omega : (0:Int) ≤ -b) h2
            omega

theorem tdiv_in_range (a b : Int)
    (ha1 : -(2 ^ 63) ≤ a) (ha2 : a < 2 ^ 63)
    (hb : b ≠ 0) (hexc : ¬(a = -(2 ^ 63) ∧ b = -1)) :
    -(2 ^ 63) ≤ a.tdiv b ∧ a.tdiv b < 2 ^ 63 := by
  have hnat := Int.natAbs_tdiv a b
  have hle : (a.tdiv b).natAbs ≤ a.natAbs := hnat ▸ Nat.div_le_self _ _
  have hq1 : -(2 ^ 63) ≤ a.tdiv b ∧ a.tdiv b ≤ 2 ^ 63 := by omega
  refine ⟨hq1.1, ?_⟩
  rcases lt_or_eq_of_le hq1.2 with h | hq
  · exact h
  · exfalso
    have hba : b.natAbs = 1 := by
      by_contra hb1
      have h2 : 2 ≤ b.natAbs := by omega
      have h3 : a.natAbs / b.natAbs ≤ a.natAbs / 2 :=
        Nat.div_le_div_left h2 (by omega)
      have h3' : (a.tdiv b).natAbs ≤ a.natAbs / 2 := hnat ▸ h3
      omega
    have hb11 : b = 1 ∨ b = -1 := by omega
    rcases hb11 with rfl | rfl
    · rw [Int.tdiv_one] at hq
      omega
    · have hne : a ≠ -(2 ^ 63) := fun h => hexc ⟨h, rfl⟩
      have hdn : a.tdiv (-1) = -a := by
        rw [Int.tdiv_neg, Int.tdiv_one]
      omega

theorem C9_divMod_amended (pc : Bool) (a b : Int)
    (ha1 : -(2 ^ 63) ≤ a) (ha2 : a < 2 ^ 63)
    (hb1 : -(2 ^ 63) ≤ b) (hb2 : b < 2 ^ 63) :
    (b = 0 → divMod pc a b = .error .STATIC_DIV_ZERO) ∧
    (b ≠ 0 → ¬(a = -(2 ^ 63) ∧ b = -1) →
      ∃ d m, divMod pc a b = .ok (d, m) ∧ a = d * b + m ∧
        (pc = true → (m = 0 ∨ (0 < b ∧ 0 < m) ∨ (b < 0 ∧ m < 0))) ∧
        (pc = false → d = a.tdiv b ∧ m = a.tmod b)) := by
  constructor
  · intro h
    simp [divMod, h]
  · intro hb hexc
    have hq := tdiv_in_range a b ha1 ha2 hb hexc
    have hwq : wrap64 (a.tdiv b) = a.tdiv b := wrap64_eq_self _ hq.1 hq.2
    have hid := Int.tdiv_add_tmod a b
    have hcomm : b * (a.tdiv b) = (a.tdiv b) * b := mul_comm _ _
    cases pc with
    | false =>
        refine ⟨wrap64 (a.tdiv b), a.tmod b, by simp [divMod, hb], ?_, by simp,
          fun _ => ⟨hwq, rfl⟩⟩
        rw [hwq]
        linarith
    | true =>
        have hbq := bq_range a b hb
        have hbqr : -(2 ^ 63) ≤ b * (a.tdiv b) ∧ b * (a.tdiv b) < 2 ^ 63 := by
          rcases le_or_lt 0 a with hap | han
          · have := hbq.1 hap
            omega
          · have := hbq.2 (le_of_lt han)
            omega
        have hwbq : wrap64 ((a.tdiv b) * b) = b * (a.tdiv b) := by
          rw [← hcomm]
          exact wrap64_eq_self _ hbqr.1 hbqr.2
        have hm0 : a - wrap64 ((wrap64 (a.tdiv b)) * b) = a.tmod b := by
          rw [hwq, hwbq]
          omega
        have hmabs := natAbs_tmod_lt a b hb
        simp only [divMod, if_neg hb, if_pos rfl]
        rw [hwq] at hm0 ⊢
        rw [hm0]
        by_cases hcond : a.tmod b ≠ 0 ∧
            ((b < 0 ∧ 0 < a.tmod b) ∨ (0 < b ∧ a.tmod b < 0))
        · rw [if_pos hcond]
          refine ⟨a.tdiv b - 1, a.tmod b + b, rfl, ?_, ?_, by simp⟩
          · linarith [show (a.tdiv b - 1) * b + (a.tmod b + b)
              = b * (a.tdiv b) + a.tmod b from by ring]
          · intro _
            rcases hcond.2 with ⟨hbn, hmp⟩ | ⟨hbp, hmn⟩
            · exact Or.inr (Or.inr ⟨hbn, by omega⟩)
            · exact Or.inr (Or.inl ⟨hbp, by omega⟩)
        · rw [if_neg hcond]
          refine ⟨a.tdiv b, a.tmod b, rfl, by linarith, ?_, by simp⟩
          intro _
          push_neg at hcond
          rcases eq_or_ne (a.tmod b) 0 with hm | hm
          · exact Or.inl hm
          · have h2 := hcond hm
            omega

/-- C9 counterexample: at `a = -2^63, b = -1` the `int64_t` quotient `a / b`
overflows (the mathematical quotient `2^63` is not representable), so the
returned pair does not satisfy `a = d*b + m`. -/
theorem C9_divMod_counterexample :
    divMod false (-(2 ^ 63)) (-1) = .ok (-(2 ^ 63), 0) ∧
    ¬((-(2 ^ 63) : Int) = -(2 ^ 63) * (-1) + 0) := by
  constructor
  · rfl
  · decide

/-- Closed witness for the amended C9 at `pc = true, a = 7, b = -3`. -/
theorem C9_divMod_amended_witness :
    ((-3 : Int) ≠ 0) ∧ ¬((7 : Int) = -(2 ^ 63) ∧ (-3 : Int) = -1) ∧
    (∃ d m, divMod true 7 (-3) = Except.ok (d, m) ∧ (7 : Int) = d * (-3) + m ∧
      (true = true → (m = 0 ∨ (0 < (-3 : Int) ∧ 0 < m) ∨ ((-3 : Int) < 0 ∧ m < 0))) ∧
      (true = false → d = Int.tdiv 7 (-3) ∧ m = Int.tmod 7 (-3))) :=
  ⟨by decide, by decide,
   (C9_divMod_amended true 7 (-3) (by decide) (by decide) (by decide)
     (by decide)).2 (by decide) (by decide)⟩

/-! ### C2: speculative probe and the undo log -/

/-- Once the score is -1 the loop stops: the final score stays -1. -/
theorem canCallLoop_neg (F : Nat) :
    ∀ (ps : List CParam) (ss : List CallSlot) (rg : Nat) (st : USt),
      (canCallLoop F ps ss (-1) rg st).1 = -1 := by
  intro ps ss rg st
  cases ps with
  | nil => rfl
  | cons p ps =>
      cases ss with
      | nil => rfl
      | cons slot ss =>
          simp only [canCallLoop]
          simp

/-- Unfolding one iteration of the loop when the score is still live. -/
theorem canCallLoop_cons (F : Nat) (p : CParam) (ps : List CParam)
    (slot : CallSlot) (ss : List CallSlot) (score : Int) (rg : Nat) (st : USt)
    (hsc : ¬score = -1) :
    canCallLoop F (p :: ps) (slot :: ss) score rg st
      = canCallLoop F ps ss
          (if (canCallStep F p slot st).1 then score else -1)
          (rg + (canCallStep F p slot st).2.1)
          (canCallStep F p slot st).2.2 := by
  simp only [canCallLoop]
  rw [if_neg hsc]

/-- Unwinding the full undo log of one `unify` run started with an empty log
restores the starting state. -/
theorem unify_undo_restores (F : Nat) (a b : Ty) (st : USt) :
    undoApply (unify F a b st []).2.2 (unify F a b st []).2.1 = st := by
  obtain ⟨new, hlog, hundo⟩ := (unify_restore F).1 a b st []
  rw [List.append_nil] at hlog
  rw [hlog]
  exact hundo

/-- The pass/fail bit of one loop step agrees with `specArgOk` run from the
step's starting state. -/
theorem canCallStep_pass (F : Nat) (p : CParam) (slot : CallSlot) (st : USt) :
    (canCallStep F p slot st).1 = specArgOk F st p slot := by
  cases p with
  | value expect =>
      cases hslot : slot.argType with
      | none => simp [canCallStep, specArgOk, hslot]
      | some argTy =>
          by_cases hw : slot.wrapOk
          · rcases hu : unify F argTy expect st [] with ⟨sc, st1, newlog⟩
            by_cases hs : 0 ≤ sc
            · simp [canCallStep, specArgOk, hslot, hw, hu, hs]
            · simp [canCallStep, specArgOk, hslot, hw, hu, hs]
          · simp [canCallStep, specArgOk, hslot, hw]
  | generic isSt expect =>
      cases hslot : slot.argType with
      | none => simp [canCallStep, specArgOk, hslot]
      | some argTy =>
          by_cases hst : isSt
          · by_cases hstat : argTy.isStaticTy
            · by_cases hw : slot.wrapOk
              · rcases hu : unify F argTy expect st [] with ⟨sc, st1, newlog⟩
                by_cases hs : 0 ≤ sc
                · simp [canCallStep, specArgOk, hslot, hst, hstat, hw, hu, hs]
                · simp [canCallStep, specArgOk, hslot, hst, hstat, hw, hu, hs]
              · simp [canCallStep, specArgOk, hslot, hst, hstat, hw]
            · simp [canCallStep, specArgOk, hslot, hst, hstat]
          · simp [canCallStep, specArgOk, hslot, hst]

/-- A passed step leaves the state exactly as it found it (the undo log of
its successful unification is unwound). -/
theorem canCallStep_pass_state (F : Nat) (p : CParam) (slot : CallSlot)
    (st : USt) (h : (canCallStep F p slot st).1 = true) :
    (canCallStep F p slot st).2.2 = st := by
  cases p with
  | value expect =>
      cases hslot : slot.argType with
      | none => simp [canCallStep, hslot]
      | some argTy =>
          by_cases hw : slot.wrapOk
          · rcases hu : unify F argTy expect st [] with ⟨sc, st1, newlog⟩
            by_cases hs : 0 ≤ sc
            · have hres := unify_undo_restores F argTy expect st
              rw [hu] at hres
              simp [canCallStep, hslot, hw, hu, hs, hres]
            · rw [canCallStep_pass] at h
              simp [specArgOk, hslot, hw, hu, hs] at h
          · rw [canCallStep_pass] at h
            simp [specArgOk, hslot, hw] at h
  | generic isSt expect =>
      cases hslot : slot.argType with
      | none => simp [canCallStep, hslot]
      | some argTy =>
          by_cases hst : isSt
          · by_cases hstat : argTy.isStaticTy
            · by_cases hw : slot.wrapOk
              · rcases hu : unify F argTy expect st [] with ⟨sc, st1, newlog⟩
                by_cases hs : 0 ≤ sc
                · have hres := unify_undo_restores F argTy expect st
                  rw [hu] at hres
                  simp [canCallStep, hslot, hst, hstat, hw, hu, hs, hres]
                · rw [canCallStep_pass] at h
                  simp [specArgOk, hslot, hst, hstat, hw, hu, hs] at h
              · rw [canCallStep_pass] at h
                simp [specArgOk, hslot, hst, hstat, hw] at h
            · rw [canCallStep_pass] at h
              simp [specArgOk, hslot, hst, hstat] at h
          · simp [canCallStep, hslot, hst]

/-- The `real_gi` increment of one step: 1 exactly for a generic parameter
with a bound argument. -/
theorem canCallStep_rg (F : Nat) (p : CParam) (slot : CallSlot) (st : USt) :
    (canCallStep F p slot st).2.1 =
      (match p, slot.argType with
       | CParam.generic _ _, some _ => 1
       | _, _ => 0) := by
  cases p with
  | value expect =>
      cases hslot : slot.argType with
      | none => simp [canCallStep, hslot]
      | some argTy =>
          by_cases hw : slot.wrapOk
          · rcases hu : unify F argTy expect st [] with ⟨sc, st1, newlog⟩
            by_cases hs : 0 ≤ sc
            · simp [canCallStep, hslot, hw, hu, hs]
            · simp [canCallStep, hslot, hw, hu, hs]
          · simp [canCallStep, hslot, hw]
  | generic isSt expect =>
      cases hslot : slot.argType with
      | none => simp [canCallStep, hslot]
      | some argTy =>
          by_cases hst : isSt
          · by_cases hstat : argTy.isStaticTy
            · by_cases hw : slot.wrapOk
              · rcases hu : unify F argTy expect st [] with ⟨sc, st1, newlog⟩
                by_cases hs : 0 ≤ sc
                · simp [canCallStep, hslot, hst, hstat, hw, hu, hs]
                · simp [canCallStep, hslot, hst, hstat, hw, hu, hs]
              · simp [canCallStep, hslot, hst, hstat, hw]
            · simp [canCallStep, hslot, hst, hstat]
          · simp [canCallStep, hslot, hst]

theorem canCallLoop_success_state (F : Nat) :
    ∀ (ps : List CParam) (ss : List CallSlot) (score : Int) (rg : Nat) (st : USt),
      0 ≤ (canCallLoop F ps ss score rg st).1 →
      (canCallLoop F ps ss score rg st).2.2 = st := by
  intro ps
  induction ps with
  | nil => intro ss score rg st _; rfl
  | cons p ps ih =>
      intro ss score rg st h
      cases ss with
      | nil => rfl
      | cons slot ss =>
          by_cases hsc : score = -1
          · subst hsc
            have hr : (canCallLoop F (p :: ps) (slot :: ss) (-1) rg st).1 = -1 :=
              canCallLoop_neg F (p :: ps) (slot :: ss) rg st
            rw [hr] at h
            exact absurd h (by decide)
          · rw [canCallLoop_cons F p ps slot ss score rg st hsc] at h ⊢
            by_cases hok : (canCallStep F p slot st).1 = true
            · have hst1 := canCallStep_pass_state F p slot st hok
              rw [hok, if_pos rfl, hst1] at h ⊢
              exact ih ss score (rg + (canCallStep F p slot st).2.1) st h
            · rw [if_neg hok] at h
              rw [canCallLoop_neg] at h
              exact absurd h (by decide)

/-- C2 (amended): a probe in which every argument unification succeeds — in
particular any probe on which `canCall` scores ≥ 0 — leaves the type graph
exactly as it found it: each per-argument undo log is unwound in reverse
order on the success path. -/
theorem C2_canCall_success_preserves_state (F : Nat) (params : List CParam)
    (slots : List CallSlot) (score0 : Int) (st : USt)
    (h : 0 ≤ (canCall F params slots score0 st).1) :
    (canCall F params slots score0 st).2 = st := by
  have hloop := canCallLoop_success_state F params slots score0 0 st
  unfold canCall at h ⊢
  rcases hl : canCallLoop F params slots score0 0 st with ⟨score, rg, st1⟩
  rw [hl] at h hloop
  by_cases hs : 0 ≤ score
  · exact hloop hs
  · simp only [if_neg hs] at h
    exact absurd h hs

/-- C2 counterexample: the claim states the rollback happens "regardless of
whether the probe succeeds or fails at any argument", but `canCall` calls
`undo.undo()` only on the success branch.  Probing the one-parameter
candidate `f(x: C[?7, str])` with an argument of type `C[int(1), int(2)]`
binds `?7 := int(1)`, then fails on the second generic — and the binding of
node 7 survives the failed probe. -/
theorem C2_probe_mutates_on_failure :
    (canCall 10 [CParam.value (Ty.cls "C" [Ty.unbound 7 0, Ty.strStatic "s"])]
        [⟨some (Ty.cls "C" [Ty.intStatic 1, Ty.intStatic 2]), true⟩]
        0 emptySt).1 = -1 ∧
    (canCall 10 [CParam.value (Ty.cls "C" [Ty.unbound 7 0, Ty.strStatic "s"])]
        [⟨some (Ty.cls "C" [Ty.intStatic 1, Ty.intStatic 2]), true⟩]
        0 emptySt).2 7 = some (Ty.intStatic 1) ∧
    emptySt 7 = none := by
  refine ⟨?_, ?_, rfl⟩ <;> rfl

/-- Closed witness for the amended C2: a fully successful probe returns the
untouched state. -/
theorem C2_canCall_success_preserves_state_witness :
    0 ≤ (canCall 5 [CParam.value (Ty.cls "int" [])]
        [⟨some (Ty.cls "int" []), true⟩] 0 emptySt).1 ∧
    (canCall 5 [CParam.value (Ty.cls "int" [])]
        [⟨some (Ty.cls "int" []), true⟩] 0 emptySt).2 = emptySt :=
  ⟨by decide,
   C2_canCall_success_preserves_state 5 [CParam.value (Ty.cls "int" [])]
     [⟨some (Ty.cls "int" []), true⟩] 0 emptySt (by decide)⟩

/-! ### C3: canCall scoring -/

theorem realGiOf_cons (p : CParam) (ps : List CParam) (slot : CallSlot)
    (ss : List CallSlot) :
    realGiOf (p :: ps) (slot :: ss) =
      (match p, slot.argType with
       | CParam.generic _ _, some _ => 1
       | _, _ => 0) + realGiOf ps ss := rfl

theorem canCallLoop_spec (F : Nat) :
    ∀ (ps : List CParam) (ss : List CallSlot) (score : Int) (rg : Nat) (st : USt),
      ¬score = -1 →
      ((ps.zip ss).all (fun pr => specArgOk F st pr.1 pr.2) = true →
        canCallLoop F ps ss score rg st = (score, rg + realGiOf ps ss, st)) ∧
      ((ps.zip ss).all (fun pr => specArgOk F st pr.1 pr.2) = false →
        (canCallLoop F ps ss score rg st).1 = -1) := by
  intro ps
  induction ps with
  | nil =>
      intro ss score rg st _
      constructor
      · intro _
        simp [canCallLoop, realGiOf]
      · intro hall
        simp at hall
  | cons p ps ih =>
      intro ss score rg st hsc
      cases ss with
      | nil =>
          constructor
          · intro _
            simp [canCallLoop, realGiOf]
          · intro hall
            simp at hall
      | cons slot ss =>
          have hzip : ((p :: ps).zip (slot :: ss)) = (p, slot) :: ps.zip ss := rfl
          rw [canCallLoop_cons F p ps slot ss score rg st hsc]
          by_cases hok : (canCallStep F p slot st).1 = true
          · have hspecA : specArgOk F st p slot = true := by
              rw [← canCallStep_pass F p slot st]
              exact hok
            have hst1 := canCallStep_pass_state F p slot st hok
            have hrg := canCallStep_rg F p slot st
            rw [hok, if_pos rfl, hst1, hrg]
            constructor
            · intro hall
              rw [hzip, List.all_cons, hspecA, Bool.true_and] at hall
              rw [(ih ss score _ st hsc).1 hall]
              rw [realGiOf_cons, ← Nat.add_assoc]
            · intro hall
              rw [hzip, List.all_cons, hspecA, Bool.true_and] at hall
              exact (ih ss score _ st hsc).2 hall
          · have hspecA : specArgOk F st p slot = false := by
              rw [← canCallStep_pass F p slot st]
              revert hok
              cases (canCallStep F p slot st).1 <;> simp
            constructor
            · intro hall
              rw [hzip, List.all_cons, hspecA, Bool.false_and] at hall
              exact absurd hall (by decide)
            · intro _
              rw [if_neg hok]
              exact canCallLoop_neg F ps ss _ _

/-- C3: `canCall` returns -1 whenever the probe of any bound argument fails
(wrap failure, non-static argument for a static generic, or a unification
scoring -1) — including when `reorderNamedArgs` already failed with -1 —
and a fully successful probe returns `reorderNamedArgs`' score plus exactly
1 when every function generic was determined during the probe
(`real_gi == fn->funcGenerics.size()`), plus 0 otherwise. -/
theorem C3_canCall_scoring (F : Nat) (params : List CParam)
    (slots : List CallSlot) (score0 : Int) (st : USt) :
    (0 ≤ score0 →
      (canCall F params slots score0 st).1 =
        (if (params.zip slots).all (fun pr => specArgOk F st pr.1 pr.2)
         then score0 +
           (if realGiOf params slots = countGenerics params then 1 else 0)
         else -1)) ∧
    (canCall F params slots (-1) st).1 = -1 := by
  constructor
  · intro h0
    have hsc : ¬score0 = -1 := by omega
    have hspec := canCallLoop_spec F params slots score0 0 st hsc
    by_cases hall :
        (params.zip slots).all (fun pr => specArgOk F st pr.1 pr.2) = true
    · unfold canCall
      rw [hspec.1 hall]
      rw [if_pos hall]
      simp only [if_pos h0, Nat.zero_add]
    · have hf : (params.zip slots).all (fun pr => specArgOk F st pr.1 pr.2)
          = false := by
        revert hall
        cases (params.zip slots).all (fun pr => specArgOk F st pr.1 pr.2) <;> simp
      have h1 := hspec.2 hf
      unfold canCall
      rcases hl : canCallLoop F params slots score0 0 st with ⟨sc, rg, st1⟩
      rw [hl] at h1
      have hscm : sc = -1 := h1
      subst hscm
      rw [hf]
      simp
  · have h := canCallLoop_neg F params slots 0 st
    unfold canCall
    rcases hl : canCallLoop F params slots (-1) 0 st with ⟨sc, rg, st1⟩
    rw [hl] at h
    have hscm : sc = -1 := h
    subst hscm
    simp

/-- Closed witness for C3: a two-parameter candidate (one value parameter,
one non-static generic) with both arguments bound probes successfully and
earns the +1 all-generics-determined bonus. -/
theorem C3_canCall_scoring_witness :
    0 ≤ (2 : Int) ∧
    (canCall 6 [CParam.value (Ty.cls "int" []),
        CParam.generic false (Ty.generic 0)]
      [⟨some (Ty.cls "int" []), true⟩, ⟨some (Ty.cls "str" []), true⟩]
      2 emptySt).1 = 3 := by
  refine ⟨by decide, ?_⟩
  rw [(C3_canCall_scoring 6 [CParam.value (Ty.cls "int" []),
        CParam.generic false (Ty.generic 0)]
      [⟨some (Ty.cls "int" []), true⟩, ⟨some (Ty.cls "str" []), true⟩]
      2 emptySt).1 (by decide)]
  decide

/-! ### C5: reflexivity of unify -/

theorem resolve_generic (f : Nat) (st : USt) (i : Nat) :
    resolve f st (Ty.generic i) = Ty.generic i := by cases f <;> rfl

theorem resolve_cls (f : Nat) (st : USt) (n : String) (gs : List Ty) :
    resolve f st (Ty.cls n gs) = Ty.cls n gs := by cases f <;> rfl

theorem resolve_intStatic (f : Nat) (st : USt) (v : Int) :
    resolve f st (Ty.intStatic v) = Ty.intStatic v := by cases f <;> rfl

theorem resolve_strStatic (f : Nat) (st : USt) (v : String) :
    resolve f st (Ty.strStatic v) = Ty.strStatic v := by cases f <;> rfl

theorem sizeT_pos : ∀ t : Ty, 1 ≤ sizeT t := by
  intro t
  cases t <;> simp [sizeT]

/-- `ClassType::unify` on two classes with the same (non-carve-out) name and
matching arity runs the pairwise generic loop and adds the base weight 3. -/
theorem unify_cls_same_name (f : Nat) (n : String) (g1 g2 : List Ty)
    (st : USt) (log : ULog)
    (h1 : ¬(n = "int" ∧ n = "Int")) (h2 : ¬(n = "Int" ∧ n = "int"))
    (hlen : g1.length = g2.length) :
    unify (f + 1) (Ty.cls n g1) (Ty.cls n g2) st log
      = match unifyPairs f g1 g2 st log with
        | (some s, st2, log2) => (3 + s, st2, log2)
        | (none, st2, log2) => (-1, st2, log2) := by
  simp only [unify, resolve_cls]
  rw [if_neg h1, if_neg h2, if_neg (by simp), if_neg (by simp [hlen])]

/-- `ClassType::unify` fails on distinct names outside the `int`/`Int`
carve-out. -/
theorem unify_cls_diff_name (f : Nat) (n1 n2 : String) (g1 g2 : List Ty)
    (st : USt) (log : ULog)
    (h1 : ¬(n1 = "int" ∧ n2 = "Int")) (h2 : ¬(n1 = "Int" ∧ n2 = "int"))
    (hne : n1 ≠ n2) :
    unify (f + 1) (Ty.cls n1 g1) (Ty.cls n2 g2) st log = (-1, st, log) := by
  simp only [unify, resolve_cls]
  rw [if_neg h1, if_neg h2, if_pos hne]

/-- `ClassType::unify` fails on a generic-arity mismatch. -/
theorem unify_cls_arity (f : Nat) (n : String) (g1 g2 : List Ty)
    (st : USt) (log : ULog)
    (h1 : ¬(n = "int" ∧ n = "Int")) (h2 : ¬(n = "Int" ∧ n = "int"))
    (hlen : g1.length ≠ g2.length) :
    unify (f + 1) (Ty.cls n g1) (Ty.cls n g2) st log = (-1, st, log) := by
  simp only [unify, resolve_cls]
  rw [if_neg h1, if_neg h2, if_neg (by simp), if_pos hlen]

/-- The `int`/`Int` carve-out: unifying class `int` with the fixed-width
`Int` class reduces to unifying `Int`'s width generic with the static
integer 64 (via the swap `tc->unify(this, us)`). -/
theorem unify_cls_int_Int (f : Nat) (g1 : List Ty) (w : Ty) (g2' : List Ty)
    (st : USt) (log : ULog) :
    unify (f + 2) (Ty.cls "int" g1) (Ty.cls "Int" (w :: g2')) st log
      = unify f w (Ty.intStatic 64) st log := by
  have step1 : unify (f + 2) (Ty.cls "int" g1) (Ty.cls "Int" (w :: g2')) st log
      = unify (f + 1) (Ty.cls "Int" (w :: g2')) (Ty.cls "int" g1) st log := by
    simp only [unify, resolve_cls]
    rw [if_pos (by simp)]
  rw [step1]
  simp only [unify, resolve_cls]
  rw [if_neg (by simp), if_pos (by simp)]

theorem unify_refl_aux : ∀ N : Nat,
    (∀ t, sizeT t ≤ N → isConcrete t = true → ∀ F st log, 2 * sizeT t ≤ F →
       ∃ s, unify F t t st log = (s, st, log) ∧ 0 ≤ s) ∧
    (∀ gs, sizeTL gs ≤ N → isConcreteL gs = true → ∀ F st log,
       2 * sizeTL gs + 1 ≤ F →
       ∃ s, unifyPairs F gs gs st log = (some s, st, log) ∧ 0 ≤ s) := by
  intro N
  induction N with
  | zero =>
      constructor
      · intro t hsize _ _ _ _ _
        exact absurd (le_trans (sizeT_pos t) hsize) (by decide)
      · intro gs hsize _ F st log hF
        cases gs with
        | nil =>
            obtain ⟨f, rfl⟩ : ∃ f, F = f + 1 := ⟨F - 1, by omega⟩
            exact ⟨0, rfl, le_refl 0⟩
        | cons x xs =>
            have hsz : sizeTL (x :: xs) = 1 + sizeT x + sizeTL xs := rfl
            omega
  | succ N ih =>
      constructor
      · intro t hsize hconc F st log hF
        cases t with
        | unbound i l => simp [isConcrete] at hconc
        | generic i =>
            have hsz : sizeT (Ty.generic i) = 1 := rfl
            obtain ⟨f, rfl⟩ : ∃ f, F = f + 1 := ⟨F - 1, by omega⟩
            refine ⟨0, ?_, le_refl 0⟩
            have h : unify (f + 1) (Ty.generic i) (Ty.generic i) st log
                = if i = i then (0, st, log) else (-1, st, log) := rfl
            rw [h, if_pos rfl]
        | intStatic v =>
            have hsz : sizeT (Ty.intStatic v) = 1 := rfl
            obtain ⟨f, rfl⟩ : ∃ f, F = f + 1 := ⟨F - 1, by omega⟩
            refine ⟨1, ?_, by decide⟩
            have h : unify (f + 1) (Ty.intStatic v) (Ty.intStatic v) st log
                = if v = v then (1, st, log) else (-1, st, log) := rfl
            rw [h, if_pos rfl]
        | strStatic v =>
            have hsz : sizeT (Ty.strStatic v) = 1 := rfl
            obtain ⟨f, rfl⟩ : ∃ f, F = f + 1 := ⟨F - 1, by omega⟩
            refine ⟨1, ?_, by decide⟩
            have h : unify (f + 1) (Ty.strStatic v) (Ty.strStatic v) st log
                = if v = v then (1, st, log) else (-1, st, log) := rfl
            rw [h, if_pos rfl]
        | cls n gs =>
            have hsz : sizeT (Ty.cls n gs) = 1 + sizeTL gs := rfl
            obtain ⟨f, rfl⟩ : ∃ f, F = f + 1 := ⟨F - 1, by omega⟩
            have hconc' : isConcreteL gs = true := hconc
            obtain ⟨s2, hp, hs2⟩ := ih.2 gs (by omega) hconc' f st log (by omega)
            refine ⟨3 + s2, ?_, by omega⟩
            rw [unify_cls_same_name f n gs gs st log
              (by rintro ⟨ha, hb⟩; rw [ha] at hb; exact absurd hb (by decide))
              (by rintro ⟨ha, hb⟩; rw [ha] at hb; exact absurd hb (by decide))
              rfl, hp]
      · intro gs hsize hconc F st log hF
        cases gs with
        | nil =>
            obtain ⟨f, rfl⟩ : ∃ f, F = f + 1 := ⟨F - 1, by omega⟩
            exact ⟨0, rfl, le_refl 0⟩
        | cons x xs =>
            have hsz : sizeTL (x :: xs) = 1 + sizeT x + sizeTL xs := rfl
            rw [show isConcreteL (x :: xs) = (isConcrete x && isConcreteL xs)
              from rfl, Bool.and_eq_true] at hconc
            obtain ⟨f, rfl⟩ : ∃ f, F = f + 1 := ⟨F - 1, by omega⟩
            obtain ⟨s1, hu, hs1⟩ := ih.1 x (by omega) hconc.1 f st log (by omega)
            obtain ⟨s2, hp, hs2⟩ := ih.2 xs (by omega) hconc.2 f st log (by omega)
            refine ⟨s1 + s2, ?_, by omega⟩
            have h : unifyPairs (f + 1) (x :: xs) (x :: xs) st log
                = match unify f x x st log with
                  | (s, st1, log1) =>
                    if s = -1 then (none, st1, log1)
                    else
                      match unifyPairs f xs xs st1 log1 with
                      | (some t2, st2, log2) => (some (s + t2), st2, log2)
                      | (none, st2, log2) => (none, st2, log2) := rfl
            rw [h, hu]
            simp only [if_neg (show ¬s1 = -1 from by omega)]
            rw [hp]

/-- C5 (amended): for every concrete `t`, `unify(t, t)` succeeds with a
score ≥ 0 and performs no mutation (neither the state nor the undo log
changes).  The score is not 0 in general: `ClassType::unify` starts its
score at 3 (`FuncType::unify`'s `this == typ` shortcut is the only path
that returns 0). -/
theorem C5_unify_refl_amended (t : Ty) (F : Nat) (st : USt) (log : ULog)
    (hconc : isConcrete t = true) (hF : 2 * sizeT t ≤ F) :
    ∃ s, unify F t t st log = (s, st, log) ∧ 0 ≤ s :=
  (unify_refl_aux (sizeT t)).1 t (le_refl _) hconc F st log hF

/-- C5 counterexample: `unify(t, t)` on the concrete class type `int` scores
3 (the `ClassType::unify` base weight), not 0 as the claim states. -/
theorem C5_unify_refl_counterexample :
    (unify 2 (Ty.cls "int" []) (Ty.cls "int" []) emptySt []).1 = 3 ∧
    (3 : Int) ≠ 0 := ⟨rfl, by decide⟩

/-- Closed witness for the amended C5. -/
theorem C5_unify_refl_amended_witness :
    isConcrete (Ty.cls "list" [Ty.intStatic 5]) = true ∧
    2 * sizeT (Ty.cls "list" [Ty.intStatic 5]) ≤ 8 ∧
    ∃ s, unify 8 (Ty.cls "list" [Ty.intStatic 5])
        (Ty.cls "list" [Ty.intStatic 5]) emptySt [] = (s, emptySt, []) ∧ 0 ≤ s :=
  ⟨by decide, by decide,
   C5_unify_refl_amended (Ty.cls "list" [Ty.intStatic 5]) 8 emptySt []
     (by decide) (by decide)⟩

/-! ### C4: ClassType::unify -/

theorem unifyPairs_eq_pairScores : ∀ (f : Nat) (l1 l2 : List Ty) (st : USt)
    (log : ULog),
    unifyPairs f l1 l2 st log
      = match pairScores f l1 l2 st log with
        | (some l, st2, log2) => (some l.sum, st2, log2)
        | (none, st2, log2) => (none, st2, log2) := by
  intro f
  induction f with
  | zero => intro l1 l2 st log; rfl
  | succ f ih =>
      intro l1 l2 st log
      match l1, l2 with
      | [], _ => rfl
      | _ :: _, [] => rfl
      | x :: xs, y :: ys =>
          have e1 : unifyPairs (f + 1) (x :: xs) (y :: ys) st log
              = match unify f x y st log with
                | (s, st1, log1) =>
                  if s = -1 then (none, st1, log1)
                  else
                    match unifyPairs f xs ys st1 log1 with
                    | (some s2, st2, log2) => (some (s + s2), st2, log2)
                    | (none, st2, log2) => (none, st2, log2) := rfl
          have e2 : pairScores (f + 1) (x :: xs) (y :: ys) st log
              = match unify f x y st log with
                | (s, st1, log1) =>
                  if s = -1 then (none, st1, log1)
                  else
                    match pairScores f xs ys st1 log1 with
                    | (some l, st2, log2) => (some (s :: l), st2, log2)
                    | (none, st2, log2) => (none, st2, log2) := rfl
          rw [e1, e2]
          rcases hu : unify f x y st log with ⟨s, st1, log1⟩
          by_cases hs : s = -1
          · simp [hs]
          · simp only [if_neg hs]
            rw [ih xs ys st1 log1]
            rcases hp : pairScores f xs ys st1 log1 with ⟨r, st2, log2⟩
            cases r with
            | some l => simp
            | none => rfl

/-- C4: `ClassType::unify` (i) fails when the names differ outside the
`int`/`Int` carve-out; (ii) under the carve-out, class `int` unifies with
the fixed-width `Int` class by unifying `Int`'s width generic with the
static integer 64; (iii) with equal names it requires identical generics
arity; and (iv) with equal names and arity it scores 3 plus the sum of the
pairwise generic unification scores, or -1 if some generic pair fails. -/
theorem C4_ClassType_unify (F : Nat) (n1 n2 : String) (g1 g2 : List Ty)
    (st : USt) (log : ULog) :
    (n1 ≠ n2 → ¬(n1 = "int" ∧ n2 = "Int") → ¬(n1 = "Int" ∧ n2 = "int") →
      unify (F + 1) (Ty.cls n1 g1) (Ty.cls n2 g2) st log = (-1, st, log)) ∧
    (∀ w g2', unify (F + 2) (Ty.cls "int" g1) (Ty.cls "Int" (w :: g2')) st log
      = unify F w (Ty.intStatic 64) st log) ∧
    (n1 = n2 → g1.length ≠ g2.length →
      unify (F + 1) (Ty.cls n1 g1) (Ty.cls n2 g2) st log = (-1, st, log)) ∧
    (n1 = n2 → g1.length = g2.length →
      (unify (F + 1) (Ty.cls n1 g1) (Ty.cls n2 g2) st log).1 =
        (match (pairScores F g1 g2 st log).1 with
         | some l => 3 + l.sum
         | none => -1)) := by
  refine ⟨?_, ?_, ?_, ?_⟩
  · intro hne h1 h2
    exact unify_cls_diff_name F n1 n2 g1 g2 st log h1 h2 hne
  · intro w g2'
    exact unify_cls_int_Int F g1 w g2' st log
  · rintro rfl hlen
    exact unify_cls_arity F n1 g1 g2 st log
      (by rintro ⟨ha, hb⟩; rw [ha] at hb; exact absurd hb (by decide))
      (by rintro ⟨ha, hb⟩; rw [ha] at hb; exact absurd hb (by decide)) hlen
  · rintro rfl hlen
    rw [unify_cls_same_name F n1 g1 g2 st log
      (by rintro ⟨ha, hb⟩; rw [ha] at hb; exact absurd hb (by decide))
      (by rintro ⟨ha, hb⟩; rw [ha] at hb; exact absurd hb (by decide)) hlen,
      unifyPairs_eq_pairScores]
    rcases hp : pairScores F g1 g2 st log with ⟨r, st2, log2⟩
    cases r with
    | some l => rfl
    | none => rfl

/-- Closed witness for C4 (the equal-names branch, two `list[int-static]`
classes): score 3 + 1. -/
theorem C4_ClassType_unify_witness :
    ("list" : String) = "list" ∧
    ([Ty.intStatic 1] : List Ty).length = ([Ty.intStatic 1] : List Ty).length ∧
    (unify 5 (Ty.cls "list" [Ty.intStatic 1]) (Ty.cls "list" [Ty.intStatic 1])
        emptySt []).1 = 4 := by
  refine ⟨rfl, rfl, ?_⟩
  rw [(C4_ClassType_unify 4 "list" "list" [Ty.intStatic 1] [Ty.intStatic 1]
    emptySt []).2.2.2 rfl rfl]
  decide

/-! ### C1: overload selection -/

theorem runScores_length (F : Nat) : ∀ (ms : List Candidate) (st : USt),
    (runScores F ms st).length = ms.length := by
  intro ms
  induction ms with
  | nil => intro st; rfl
  | cons m ms ih =>
      intro st
      have e : runScores F (m :: ms) st
          = (canCall F m.params m.slots m.score0 st).1 ::
              runScores F ms (canCall F m.params m.slots m.score0 st).2 := rfl
      rw [e]
      simp [ih]

theorem findMatchingMethods_eq (F : Nat) : ∀ (ms : List Candidate) (st : USt),
    (findMatchingMethods F ms st).1
      = ((ms.zip (runScores F ms st)).filter
          (fun pr => decide (pr.2 ≠ -1))).map Prod.fst := by
  intro ms
  induction ms with
  | nil => intro st; rfl
  | cons m ms ih =>
      intro st
      rcases hc : canCall F m.params m.slots m.score0 st with ⟨score, st1⟩
      rcases hr : findMatchingMethods F ms st1 with ⟨res, st2⟩
      have e1 : findMatchingMethods F (m :: ms) st
          = (if score ≠ -1 then m :: res else res, st2) := by
        show (let r := canCall F m.params m.slots m.score0 st
              let rest := findMatchingMethods F ms r.2
              ((if r.1 ≠ -1 then m :: rest.1 else rest.1, rest.2)
                : List Candidate × USt)) = _
        rw [hc]
        show (let rest := findMatchingMethods F ms st1
              ((if score ≠ -1 then m :: rest.1 else rest.1, rest.2)
                : List Candidate × USt)) = _
        rw [hr]
      have e2 : runScores F (m :: ms) st = score :: runScores F ms st1 := by
        show (canCall F m.params m.slots m.score0 st).1 ::
            runScores F ms (canCall F m.params m.slots m.score0 st).2 = _
        rw [hc]
      rw [e1, e2]
      have ih1 := ih st1
      rw [hr] at ih1
      have ih1' : res = ((ms.zip (runScores F ms st1)).filter
          (fun pr => decide (pr.2 ≠ -1))).map Prod.fst := ih1
      by_cases hs : score = -1
      · subst hs
        show (if (-1 : Int) ≠ -1 then m :: res else res)
            = (((m, (-1 : Int)) :: ms.zip (runScores F ms st1)).filter
                (fun pr => decide (pr.2 ≠ -1))).map Prod.fst
        rw [if_neg (by simp), List.filter_cons, if_neg (by simp)]
        exact ih1'
      · show (if score ≠ -1 then m :: res else res)
            = (((m, score) :: ms.zip (runScores F ms st1)).filter
                (fun pr => decide (pr.2 ≠ -1))).map Prod.fst
        rw [if_pos hs, List.filter_cons, if_pos (by simpa using hs)]
        rw [List.map_cons, ih1']

theorem head_filter_zip : ∀ (p : Nat) (ms : List Candidate) (zs : List Int)
    (s : Int), ms.length = zs.length → zs[p]? = some s → s ≠ -1 →
    (∀ k, k < p → zs[k]? = some (-1)) →
    (((ms.zip zs).filter (fun pr => decide (pr.2 ≠ -1))).map Prod.fst).head?
      = ms[p]? := by
  intro p
  induction p with
  | zero =>
      intro ms zs s hlen hz hs _
      cases zs with
      | nil => simp at hz
      | cons z zs =>
          cases ms with
          | nil => simp at hlen
          | cons m ms =>
              simp only [List.getElem?_cons_zero, Option.some.injEq] at hz
              subst hz
              simp only [List.zip_cons_cons, List.filter_cons,
                decide_eq_true_eq]
              rw [if_pos hs]
              simp
  | succ p ih =>
      intro ms zs s hlen hz hs hk
      cases zs with
      | nil => simp at hz
      | cons z zs =>
          cases ms with
          | nil => simp at hlen
          | cons m ms =>
              have hz0 : z = -1 := by
                have := hk 0 (Nat.succ_pos p)
                simpa using this
              subst hz0
              simp only [List.zip_cons_cons, List.filter_cons,
                decide_eq_true_eq]
              rw [if_neg (by simp)]
              have hlen' : ms.length = zs.length := by simpa using hlen
              have hz' : zs[p]? = some s := by simpa using hz
              have hk' : ∀ k, k < p → zs[k]? = some (-1) := by
                intro k hkp
                have := hk (k + 1) (by omega)
                simpa using this
              rw [ih ms zs s hlen' hz' hs hk']
              simp

/-- C1: when every callable overload candidate scores the same value
`s ≥ 0` (all other candidates being rejected with -1), `findBestMethod` —
`m[0]` of `findMatchingMethods` over the candidates that `ctx->findMethod`
returns — selects the *last-declared* candidate with that score; in
particular, for two overloads with structurally identical parameter types
(hence identical scores), the later-declared one is selected.  Scores are
indexed in declaration order by `declScores`; `j` is the last declaration
index whose probe scores `s`. -/
theorem C1_overload_last_declared (F : Nat) (decls : List Candidate)
    (st : USt) (j : Nat) (s : Int)
    (hj : j < decls.length) (hs : 0 ≤ s)
    (hsj : (declScores F decls st)[j]? = some s)
    (hlast : ∀ k, k < decls.length → j < k →
      (declScores F decls st)[k]? = some (-1))
    (hall : ∀ k, k < decls.length →
      (declScores F decls st)[k]? = some (-1) ∨
      (declScores F decls st)[k]? = some s) :
    findBestMethod F decls st = decls[j]? := by
  clear hall
  have hrs : runScores F (findMethod decls) st
      = (declScores F decls st).reverse := by
    unfold declScores
    rw [List.reverse_reverse]
  have hlen : (declScores F decls st).length = decls.length := by
    unfold declScores findMethod
    rw [List.length_reverse, runScores_length, List.length_reverse]
  unfold findBestMethod findMethod
  rw [findMatchingMethods_eq]
  have hfm : findMethod decls = decls.reverse := rfl
  rw [hfm] at hrs
  rw [hrs]
  have hzp : ((declScores F decls st).reverse)[decls.length - 1 - j]?
      = some s := by
    rw [List.getElem?_reverse (by omega)]
    rw [hlen]
    rw [show decls.length - 1 - (decls.length - 1 - j) = j from by omega]
    exact hsj
  have hzk : ∀ k, k < decls.length - 1 - j →
      ((declScores F decls st).reverse)[k]? = some (-1) := by
    intro k hkp
    rw [List.getElem?_reverse (by omega), hlen]
    exact hlast (decls.length - 1 - k) (by omega) (by omega)
  rw [head_filter_zip (decls.length - 1 - j) decls.reverse
    ((declScores F decls st).reverse) s
    (by rw [List.length_reverse, List.length_reverse, hlen]) hzp
    (by omega) hzk]
  rw [List.getElem?_reverse (by omega)]
  rw [show decls.length - 1 - (decls.length - 1 - j) = j from by omega]

/-- Closed witness for C1: two overloads with structurally identical
parameter types (the same single `int` value parameter) and thus equal
probe scores; the later-declared one (index 1) is selected. -/
theorem C1_overload_last_declared_witness :
    (1 < ([⟨[CParam.value (Ty.cls "int" [])],
        [⟨some (Ty.cls "int" []), true⟩], 0⟩,
      ⟨[CParam.value (Ty.cls "int" [])],
        [⟨some (Ty.cls "int" []), true⟩], 0⟩] : List Candidate).length) ∧
    findBestMethod 6
      [⟨[CParam.value (Ty.cls "int" [])], [⟨some (Ty.cls "int" []), true⟩], 0⟩,
       ⟨[CParam.value (Ty.cls "int" [])], [⟨some (Ty.cls "int" []), true⟩], 0⟩]
      emptySt
    = ([⟨[CParam.value (Ty.cls "int" [])], [⟨some (Ty.cls "int" []), true⟩], 0⟩,
        ⟨[CParam.value (Ty.cls "int" [])], [⟨some (Ty.cls "int" []), true⟩], 0⟩]
        : List Candidate)[1]? :=
  ⟨by decide,
   C1_overload_last_declared 6
     [⟨[CParam.value (Ty.cls "int" [])], [⟨some (Ty.cls "int" []), true⟩], 0⟩,
      ⟨[CParam.value (Ty.cls "int" [])], [⟨some (Ty.cls "int" []), true⟩], 0⟩]
     emptySt 1 1 (by decide) (by decide) (by decide)
     (by decide) (by decide)⟩

/-! ### C8: generalize / instantiate round trip -/

theorem mapU_congr : ∀ N : Nat,
    (∀ t, sizeT t ≤ N → ∀ φ ψ : Nat → Nat → Ty,
      (∀ p ∈ occs t, φ p.1 p.2 = ψ p.1 p.2) → mapU φ t = mapU ψ t) ∧
    (∀ gs : List Ty, sizeTL gs ≤ N → ∀ φ ψ : Nat → Nat → Ty,
      (∀ p ∈ occsL gs, φ p.1 p.2 = ψ p.1 p.2) → mapUL φ gs = mapUL ψ gs) := by
  intro N
  induction N with
  | zero =>
      constructor
      · intro t hsize
        exact absurd (le_trans (sizeT_pos t) hsize) (by decide)
      · intro gs hsize φ ψ _
        cases gs with
        | nil => rfl
        | cons x xs =>
            have hsz : sizeTL (x :: xs) = 1 + sizeT x + sizeTL xs := rfl
            omega
  | succ N ih =>
      constructor
      · intro t hsize φ ψ hp
        cases t with
        | unbound i l => exact hp (i, l) (by simp [occs])
        | generic i => rfl
        | cls n gs =>
            have hsz : sizeT (Ty.cls n gs) = 1 + sizeTL gs := rfl
            have : mapUL φ gs = mapUL ψ gs :=
              ih.2 gs (by omega) φ ψ (fun p hpm => hp p hpm)
            show Ty.cls n (mapUL φ gs) = Ty.cls n (mapUL ψ gs)
            rw [this]
        | intStatic v => rfl
        | strStatic v => rfl
      · intro gs hsize φ ψ hp
        cases gs with
        | nil => rfl
        | cons x xs =>
            have hsz : sizeTL (x :: xs) = 1 + sizeT x + sizeTL xs := rfl
            have hocc : occsL (x :: xs) = occs x ++ occsL xs := rfl
            have h1 : mapU φ x = mapU ψ x :=
              ih.1 x (by omega) φ ψ (fun p hpm => hp p
                (by rw [hocc]; exact List.mem_append_left _ hpm))
            have h2 : mapUL φ xs = mapUL ψ xs :=
              ih.2 xs (by omega) φ ψ (fun p hpm => hp p
                (by rw [hocc]; exact List.mem_append_right _ hpm))
            show mapU φ x :: mapUL φ xs = mapU ψ x :: mapUL ψ xs
            rw [h1, h2]

theorem mapUL_length (φ : Nat → Nat → Ty) : ∀ gs : List Ty,
    (mapUL φ gs).length = gs.length := by
  intro gs
  induction gs with
  | nil => rfl
  | cons x xs ih =>
      show (mapU φ x :: mapUL φ xs).length = xs.length + 1
      simp [ih]

/-- The cache invariant threaded through `instantiate`: every cached fresh
id lies in `[C0, c)` and distinct generics get distinct fresh ids. -/
def CacheInv (C0 c : Nat) (κ : Nat → Option Nat) : Prop :=
  (∀ i v, κ i = some v → C0 ≤ v ∧ v < c) ∧
  (∀ i j v, κ i = some v → κ j = some v → i = j)

theorem instGen_aux (C0 : Nat) : ∀ N : Nat,
    (∀ t, sizeT t ≤ N → noGeneric t = true → ∀ (L c : Nat)
        (κ : Nat → Option Nat), C0 ≤ c → CacheInv C0 c κ →
      (∀ i v, κ i = some v →
        (instantiate L (generalize L t) c κ).2.2 i = some v) ∧
      c ≤ (instantiate L (generalize L t) c κ).2.1 ∧
      (instantiate L (generalize L t) c κ).2.1 ≤ c + (occs t).length ∧
      CacheInv C0 (instantiate L (generalize L t) c κ).2.1
        (instantiate L (generalize L t) c κ).2.2 ∧
      (∀ p ∈ occs t, L ≤ p.2 →
        ((instantiate L (generalize L t) c κ).2.2 p.1).isSome = true) ∧
      (instantiate L (generalize L t) c κ).1
        = mapU (fun i l => if L ≤ l then
            Ty.unbound (((instantiate L (generalize L t) c κ).2.2 i).getD 0) L
          else Ty.unbound i l) t) ∧
    (∀ gs : List Ty, sizeTL gs ≤ N → noGenericL gs = true → ∀ (L c : Nat)
        (κ : Nat → Option Nat), C0 ≤ c → CacheInv C0 c κ →
      (∀ i v, κ i = some v →
        (instantiateL L (generalizeL L gs) c κ).2.2 i = some v) ∧
      c ≤ (instantiateL L (generalizeL L gs) c κ).2.1 ∧
      (instantiateL L (generalizeL L gs) c κ).2.1 ≤ c + (occsL gs).length ∧
      CacheInv C0 (instantiateL L (generalizeL L gs) c κ).2.1
        (instantiateL L (generalizeL L gs) c κ).2.2 ∧
      (∀ p ∈ occsL gs, L ≤ p.2 →
        ((instantiateL L (generalizeL L gs) c κ).2.2 p.1).isSome = true) ∧
      (instantiateL L (generalizeL L gs) c κ).1
        = mapUL (fun i l => if L ≤ l then
            Ty.unbound (((instantiateL L (generalizeL L gs) c κ).2.2 i).getD 0) L
          else Ty.unbound i l) gs) := by
  intro N
  induction N with
  | zero =>
      constructor
      · intro t hsize
        exact absurd (le_trans (sizeT_pos t) hsize) (by decide)
      · intro gs hsize _ L c κ hc hinv
        cases gs with
        | nil =>
            have e : instantiateL L (generalizeL L ([] : List Ty)) c κ
                = ([], c, κ) := rfl
            rw [e]
            exact ⟨fun i v hv => hv, le_refl c, by simp [occsL], hinv,
              by simp [occsL], rfl⟩
        | cons x xs =>
            have hsz : sizeTL (x :: xs) = 1 + sizeT x + sizeTL xs := rfl
            omega
  | succ N ih =>
      constructor
      · intro t hsize hng L c κ hc hinv
        cases t with
        | unbound i l =>
            by_cases hl : L ≤ l
            · have hg : generalize L (Ty.unbound i l) = Ty.generic i := by
                simp [generalize, hl]
              rw [hg]
              cases hκ : κ i with
              | some j =>
                  have e : instantiate L (Ty.generic i) c κ
                      = (Ty.unbound j L, c, κ) := by
                    simp [instantiate, hκ]
                  rw [e]
                  refine ⟨fun i2 v hv => hv, le_refl c, by simp [occs], hinv,
                    ?_, ?_⟩
                  · intro p hp _
                    simp [occs] at hp
                    subst hp
                    simp [hκ]
                  · show Ty.unbound j L = if L ≤ l then
                        Ty.unbound ((κ i).getD 0) L else Ty.unbound i l
                    rw [if_pos hl, hκ]
                    rfl
              | none =>
                  have e : instantiate L (Ty.generic i) c κ
                      = (Ty.unbound c L, c + 1,
                          fun x => if x = i then some c else κ x) := by
                    simp [instantiate, hκ]
                  rw [e]
                  refine ⟨?_, by show c ≤ c + 1; omega, by simp [occs],
                    ?_, ?_, ?_⟩
                  · intro i2 v hv
                    simp only []
                    by_cases hi2 : i2 = i
                    · rw [hi2] at hv
                      rw [hκ] at hv
                      cases hv
                    · rw [if_neg hi2]
                      exact hv
                  · show CacheInv C0 (c + 1) (fun x => if x = i then some c else κ x)
                    constructor
                    · intro i2 v hv
                      simp only [] at hv
                      by_cases hi2 : i2 = i
                      · rw [if_pos hi2] at hv
                        cases hv
                        omega
                      · rw [if_neg hi2] at hv
                        have := hinv.1 i2 v hv
                        omega
                    · intro i2 j2 v h2 h3
                      simp only [] at h2 h3
                      by_cases hi2 : i2 = i <;> by_cases hj2 : j2 = i
                      · rw [hi2, hj2]
                      · rw [if_pos hi2] at h2
                        rw [if_neg hj2] at h3
                        cases h2
                        have := hinv.1 j2 c h3
                        omega
                      · rw [if_neg hi2] at h2
                        rw [if_pos hj2] at h3
                        cases h3
                        have := hinv.1 i2 c h2
                        omega
                      · rw [if_neg hi2] at h2
                        rw [if_neg hj2] at h3
                        exact hinv.2 i2 j2 v h2 h3
                  · intro p hp _
                    simp [occs] at hp
                    subst hp
                    simp
                  · show Ty.unbound c L = if L ≤ l then
                        Ty.unbound (((fun x => if x = i then some c else κ x) i).getD 0) L
                      else Ty.unbound i l
                    rw [if_pos hl]
                    simp
            · have hg : generalize L (Ty.unbound i l) = Ty.unbound i l := by
                simp [generalize, hl]
              rw [hg]
              have e : instantiate L (Ty.unbound i l) c κ
                  = (Ty.unbound i l, c, κ) := rfl
              rw [e]
              refine ⟨fun i2 v hv => hv, le_refl c, by simp [occs], hinv, ?_, ?_⟩
              · intro p hp hpl
                simp [occs] at hp
                subst hp
                exact absurd hpl hl
              · show Ty.unbound i l = if L ≤ l then
                    Ty.unbound ((κ i).getD 0) L else Ty.unbound i l
                rw [if_neg hl]
        | generic i => simp [noGeneric] at hng
        | cls n gs =>
            have hsz : sizeT (Ty.cls n gs) = 1 + sizeTL gs := rfl
            have hng' : noGenericL gs = true := hng
            have hgen : generalize L (Ty.cls n gs)
                = Ty.cls n (generalizeL L gs) := rfl
            rw [hgen]
            rcases hI : instantiateL L (generalizeL L gs) c κ with ⟨gs2, c2, κ2⟩
            have e : instantiate L (Ty.cls n (generalizeL L gs)) c κ
                = (Ty.cls n gs2, c2, κ2) := by
              show (match instantiateL L (generalizeL L gs) c κ with
                    | (gs3, c3, κ3) => (Ty.cls n gs3, c3, κ3)) = _
              rw [hI]
            rw [e]
            have hL := ih.2 gs (by omega) hng' L c κ hc hinv
            rw [hI] at hL
            obtain ⟨hext, hcle, hcle2, hinv2, hsome, heq⟩ := hL
            have hext' : ∀ i v, κ i = some v → κ2 i = some v := hext
            have hcle' : c ≤ c2 := hcle
            have hcle2' : c2 ≤ c + (occsL gs).length := hcle2
            have hinv2' : CacheInv C0 c2 κ2 := hinv2
            have hsome' : ∀ p ∈ occsL gs, L ≤ p.2 → (κ2 p.1).isSome = true :=
              hsome
            have heq' : gs2 = mapUL (fun i l => if L ≤ l then
                Ty.unbound ((κ2 i).getD 0) L else Ty.unbound i l) gs := heq
            refine ⟨hext', hcle', by simpa [occs] using hcle2', hinv2',
              by simpa [occs] using hsome', ?_⟩
            show Ty.cls n gs2 = Ty.cls n (mapUL (fun i l => if L ≤ l then
                Ty.unbound ((κ2 i).getD 0) L else Ty.unbound i l) gs)
            rw [heq']
        | intStatic v =>
            have e : instantiate L (generalize L (Ty.intStatic v)) c κ
                = (Ty.intStatic v, c, κ) := rfl
            rw [e]
            exact ⟨fun i v2 hv => hv, le_refl c, by simp [occs], hinv,
              by simp [occs], rfl⟩
        | strStatic v =>
            have e : instantiate L (generalize L (Ty.strStatic v)) c κ
                = (Ty.strStatic v, c, κ) := rfl
            rw [e]
            exact ⟨fun i v2 hv => hv, le_refl c, by simp [occs], hinv,
              by simp [occs], rfl⟩
      · intro gs hsize hng L c κ hc hinv
        cases gs with
        | nil =>
            have e : instantiateL L (generalizeL L ([] : List Ty)) c κ
                = ([], c, κ) := rfl
            rw [e]
            exact ⟨fun i v hv => hv, le_refl c, by simp [occsL], hinv,
              by simp [occsL], rfl⟩
        | cons x xs =>
            have hsz : sizeTL (x :: xs) = 1 + sizeT x + sizeTL xs := rfl
            have hocc : occsL (x :: xs) = occs x ++ occsL xs := rfl
            rw [show noGenericL (x :: xs) = (noGeneric x && noGenericL xs)
              from rfl, Bool.and_eq_true] at hng
            have hgen : generalizeL L (x :: xs)
                = generalize L x :: generalizeL L xs := rfl
            rw [hgen]
            rcases hx : instantiate L (generalize L x) c κ with ⟨x2, c1, κ1⟩
            have hXfacts := ih.1 x (by omega) hng.1 L c κ hc hinv
            rw [hx] at hXfacts
            obtain ⟨hext1, hc1, hc1b, hinv1, hsome1, heq1⟩ := hXfacts
            have hext1' : ∀ i v, κ i = some v → κ1 i = some v := hext1
            have hc1' : c ≤ c1 := hc1
            have hc1b' : c1 ≤ c + (occs x).length := hc1b
            have hinv1' : CacheInv C0 c1 κ1 := hinv1
            have hsome1' : ∀ p ∈ occs x, L ≤ p.2 → (κ1 p.1).isSome = true :=
              hsome1
            have heq1' : x2 = mapU (fun i l => if L ≤ l then
                Ty.unbound ((κ1 i).getD 0) L else Ty.unbound i l) x := heq1
            rcases hxs : instantiateL L (generalizeL L xs) c1 κ1 with ⟨xs2, c2, κ2⟩
            have hXSfacts := ih.2 xs (by omega) hng.2 L c1 κ1 (by omega) hinv1'
            rw [hxs] at hXSfacts
            obtain ⟨hext2, hc2, hc2b, hinv2, hsome2, heq2⟩ := hXSfacts
            have hext2' : ∀ i v, κ1 i = some v → κ2 i = some v := hext2
            have hc2' : c1 ≤ c2 := hc2
            have hc2b' : c2 ≤ c1 + (occsL xs).length := hc2b
            have hinv2' : CacheInv C0 c2 κ2 := hinv2
            have hsome2' : ∀ p ∈ occsL xs, L ≤ p.2 → (κ2 p.1).isSome = true :=
              hsome2
            have heq2' : xs2 = mapUL (fun i l => if L ≤ l then
                Ty.unbound ((κ2 i).getD 0) L else Ty.unbound i l) xs := heq2
            have e : instantiateL L (generalize L x :: generalizeL L xs) c κ
                = (x2 :: xs2, c2, κ2) := by
              show (match instantiate L (generalize L x) c κ with
                    | (t2, c3, κ3) =>
                      match instantiateL L (generalizeL L xs) c3 κ3 with
                      | (ts2, c4, κ4) => (t2 :: ts2, c4, κ4)) = _
              rw [hx]
              show (match instantiateL L (generalizeL L xs) c1 κ1 with
                    | (ts2, c4, κ4) => (x2 :: ts2, c4, κ4)) = _
              rw [hxs]
            rw [e]
            have hlen : (occsL (x :: xs)).length
                = (occs x).length + (occsL xs).length := by
              rw [hocc, List.length_append]
            refine ⟨fun i v hv => hext2' i v (hext1' i v hv),
              by show c ≤ c2; omega,
              by show c2 ≤ c + (occsL (x :: xs)).length; omega,
              hinv2', ?_, ?_⟩
            · intro p hp hpl
              rw [hocc] at hp
              rcases List.mem_append.mp hp with hpx | hpxs
              · have h1 := hsome1' p hpx hpl
                rcases hk : κ1 p.1 with k | v
                · rw [hk] at h1
                  cases h1
                · show (κ2 p.1).isSome = true
                  rw [hext2' p.1 v hk]
                  rfl
              · exact hsome2' p hpxs hpl
            · show x2 :: xs2 = mapU (fun i l => if L ≤ l then
                  Ty.unbound ((κ2 i).getD 0) L else Ty.unbound i l) x
                :: mapUL (fun i l => if L ≤ l then
                  Ty.unbound ((κ2 i).getD 0) L else Ty.unbound i l) xs
              rw [heq1', heq2']
              have : mapU (fun i l => if L ≤ l then
                  Ty.unbound ((κ1 i).getD 0) L else Ty.unbound i l) x
                = mapU (fun i l => if L ≤ l then
                  Ty.unbound ((κ2 i).getD 0) L else Ty.unbound i l) x := by
                apply (mapU_congr (sizeT x)).1 x (le_refl _)
                intro p hp
                by_cases hpl : L ≤ p.2
                · rw [if_pos hpl, if_pos hpl]
                  have h1 := hsome1' p hp hpl
                  rcases hk : κ1 p.1 with k | v
                  · rw [hk] at h1
                    cases h1
                  · rw [hext2' p.1 v hk]
                · rw [if_neg hpl, if_neg hpl]
              rw [this]

theorem resolve_unbound_none (f : Nat) (st : USt) (a la : Nat)
    (h : st a = none) :
    resolve (f + 1) st (Ty.unbound a la) = Ty.unbound a la := by
  simp [resolve, h]

theorem resolve_unbound_free (f : Nat) (st : USt) (a la : Nat)
    (h : st a = none) :
    resolve f st (Ty.unbound a la) = Ty.unbound a la := by
  cases f with
  | zero => rfl
  | succ f => simp [resolve, h]

theorem resolve_unbound_some (f : Nat) (st : USt) (a la : Nat) (t : Ty)
    (h : st a = some t) :
    resolve (f + 1) st (Ty.unbound a la) = resolve f st t := by
  simp [resolve, h]

theorem unify_both_unbound (f : Nat) (x y : Ty) (st : USt) (log : ULog)
    (a la b lb : Nat) (ha : resolve (f + 1) st x = Ty.unbound a la)
    (hb : resolve (f + 1) st y = Ty.unbound b lb) :
    unify (f + 1) x y st log
      = if a = b then (0, st, log)
        else (0, setB st a (some (Ty.unbound b lb)), (a, st a) :: log) := by
  simp only [unify]
  rw [ha, hb]

theorem unifyPairs_cons_eq (f : Nat) (x y : Ty) (xs ys : List Ty) (st : USt)
    (log : ULog) :
    unifyPairs (f + 1) (x :: xs) (y :: ys) st log
      = match unify f x y st log with
        | (s, st2, log2) =>
          if s = -1 then (none, st2, log2)
          else
            match unifyPairs f xs ys st2 log2 with
            | (some s2, st3, log3) => (some (s + s2), st3, log3)
            | (none, st3, log3) => (none, st3, log3) := rfl

/-- A renaming of unbound nodes: each occurrence `(id, level)` is sent to a
fresh `(id, level)` pair. -/
def ren (φ : Nat → Nat → Nat × Nat) : Nat → Nat → Ty :=
  fun i l => Ty.unbound (φ i l).1 (φ i l).2

/-- The renaming performed by `instantiate (generalize t)`: occurrences at
level ≥ L get the fresh id `σ i` at level `L`, the rest are untouched. -/
def renL (L : Nat) (σ : Nat → Nat) : Nat → Nat → Nat × Nat :=
  fun i l => (if L ≤ l then σ i else i, if L ≤ l then L else l)

/-- The renaming producing an entirely fresh copy of `t`. -/
def renR (τ : Nat → Nat) : Nat → Nat → Nat × Nat := fun i l => (τ i, l)

/-- Invariant maintained while unifying two renamed copies of the same
term: every left-hand node is free or already bound to its right-hand
partner, and every right-hand node is free. -/
def GoodSt (φ1 φ2 : Nat → Nat → Nat × Nat) (os : List (Nat × Nat))
    (st : USt) : Prop :=
  ∀ p ∈ os, (st (φ1 p.1 p.2).1 = none ∨
      ∃ l2, st (φ1 p.1 p.2).1 = some (Ty.unbound (φ2 p.1 p.2).1 l2)) ∧
    st (φ2 p.1 p.2).1 = none

theorem unifyRen_aux (φ1 φ2 : Nat → Nat → Nat × Nat) : ∀ N : Nat,
    (∀ t, sizeT t ≤ N → ∀ F st log, 2 * sizeT t ≤ F →
      (∀ p ∈ occs t, ∀ q ∈ occs t, (φ1 p.1 p.2).1 ≠ (φ2 q.1 q.2).1) →
      (∀ p ∈ occs t, ∀ q ∈ occs t,
        (φ1 p.1 p.2).1 = (φ1 q.1 q.2).1 → (φ2 p.1 p.2).1 = (φ2 q.1 q.2).1) →
      GoodSt φ1 φ2 (occs t) st →
      0 ≤ (unify F (mapU (ren φ1) t) (mapU (ren φ2) t) st log).1 ∧
      (∀ x, (∀ p ∈ occs t, (φ1 p.1 p.2).1 ≠ x) →
        (unify F (mapU (ren φ1) t) (mapU (ren φ2) t) st log).2.1 x = st x) ∧
      GoodSt φ1 φ2 (occs t)
        (unify F (mapU (ren φ1) t) (mapU (ren φ2) t) st log).2.1) ∧
    (∀ gs, sizeTL gs ≤ N → ∀ F st log, 2 * sizeTL gs + 1 ≤ F →
      (∀ p ∈ occsL gs, ∀ q ∈ occsL gs, (φ1 p.1 p.2).1 ≠ (φ2 q.1 q.2).1) →
      (∀ p ∈ occsL gs, ∀ q ∈ occsL gs,
        (φ1 p.1 p.2).1 = (φ1 q.1 q.2).1 → (φ2 p.1 p.2).1 = (φ2 q.1 q.2).1) →
      GoodSt φ1 φ2 (occsL gs) st →
      (∃ s, (unifyPairs F (mapUL (ren φ1) gs) (mapUL (ren φ2) gs) st log).1
          = some s ∧ 0 ≤ s) ∧
      (∀ x, (∀ p ∈ occsL gs, (φ1 p.1 p.2).1 ≠ x) →
        (unifyPairs F (mapUL (ren φ1) gs) (mapUL (ren φ2) gs) st log).2.1 x
          = st x) ∧
      GoodSt φ1 φ2 (occsL gs)
        (unifyPairs F (mapUL (ren φ1) gs) (mapUL (ren φ2) gs) st log).2.1) := by
  intro N
  induction N with
  | zero =>
      constructor
      · intro t hsize
        exact absurd (le_trans (sizeT_pos t) hsize) (by decide)
      · intro gs hsize F st log hF _ _ hgood
        cases gs with
        | nil =>
            obtain ⟨f, rfl⟩ : ∃ f, F = f + 1 := ⟨F - 1, by omega⟩
            have e : unifyPairs (f + 1) (mapUL (ren φ1) [])
                (mapUL (ren φ2) []) st log = (some 0, st, log) := rfl
            rw [e]
            exact ⟨⟨0, rfl, le_refl 0⟩, fun x _ => rfl, hgood⟩
        | cons x xs =>
            have hsz : sizeTL (x :: xs) = 1 + sizeT x + sizeTL xs := rfl
            omega
  | succ N ih =>
      constructor
      · intro t hsize F st log hF hdisj href hgood
        cases t with
        | unbound i l =>
            have hsz1 : sizeT (Ty.unbound i l) = 1 := rfl
            obtain ⟨f, rfl⟩ : ∃ f, F = f + 1 := ⟨F - 1, by omega⟩
            have hp : ((i, l) : Nat × Nat) ∈ occs (Ty.unbound i l) := by
              simp [occs]
            have hga : st (φ1 i l).1 = none ∨
                ∃ l2, st (φ1 i l).1 = some (Ty.unbound (φ2 i l).1 l2) :=
              (hgood (i, l) hp).1
            have hb : st (φ2 i l).1 = none := (hgood (i, l) hp).2
            have hab : (φ1 i l).1 ≠ (φ2 i l).1 := hdisj (i, l) hp (i, l) hp
            have hmap1 : mapU (ren φ1) (Ty.unbound i l)
                = Ty.unbound (φ1 i l).1 (φ1 i l).2 := rfl
            have hmap2 : mapU (ren φ2) (Ty.unbound i l)
                = Ty.unbound (φ2 i l).1 (φ2 i l).2 := rfl
            rw [hmap1, hmap2]
            have hrb : resolve (f + 1) st (Ty.unbound (φ2 i l).1 (φ2 i l).2)
                = Ty.unbound (φ2 i l).1 (φ2 i l).2 :=
              resolve_unbound_none f st _ _ hb
            rcases hga with hfree | ⟨l2, hbound⟩
            · have hra : resolve (f + 1) st
                  (Ty.unbound (φ1 i l).1 (φ1 i l).2)
                  = Ty.unbound (φ1 i l).1 (φ1 i l).2 :=
                resolve_unbound_none f st _ _ hfree
              rw [unify_both_unbound f _ _ st log _ _ _ _ hra hrb,
                if_neg hab]
              refine ⟨le_refl 0, ?_, ?_⟩
              · intro x hx
                have hax : (φ1 i l).1 ≠ x := hx (i, l) hp
                show (if x = (φ1 i l).1
                    then (some (Ty.unbound (φ2 i l).1 (φ2 i l).2) : Option Ty)
                    else st x) = st x
                exact if_neg (fun h => hax h.symm)
              · intro q hq
                simp [occs] at hq
                subst hq
                constructor
                · right
                  refine ⟨(φ2 i l).2, ?_⟩
                  show (if (φ1 i l).1 = (φ1 i l).1
                      then (some (Ty.unbound (φ2 i l).1 (φ2 i l).2) : Option Ty)
                      else st (φ1 i l).1)
                    = some (Ty.unbound (φ2 i l).1 (φ2 i l).2)
                  rw [if_pos rfl]
                · show (if (φ2 i l).1 = (φ1 i l).1
                      then (some (Ty.unbound (φ2 i l).1 (φ2 i l).2) : Option Ty)
                      else st (φ2 i l).1) = none
                  rw [if_neg (fun h => hab h.symm)]
                  exact hb
            · have hra : resolve (f + 1) st
                  (Ty.unbound (φ1 i l).1 (φ1 i l).2)
                  = Ty.unbound (φ2 i l).1 l2 := by
                rw [resolve_unbound_some f st _ _ _ hbound]
                exact resolve_unbound_free f st _ _ hb
              rw [unify_both_unbound f _ _ st log _ _ _ _ hra hrb,
                if_pos rfl]
              exact ⟨le_refl 0, fun x _ => rfl, hgood⟩
        | generic i =>
            have hsz1 : sizeT (Ty.generic i) = 1 := rfl
            obtain ⟨f, rfl⟩ : ∃ f, F = f + 1 := ⟨F - 1, by omega⟩
            have e : unify (f + 1) (mapU (ren φ1) (Ty.generic i))
                (mapU (ren φ2) (Ty.generic i)) st log
                = if i = i then (0, st, log) else (-1, st, log) := rfl
            rw [e, if_pos rfl]
            exact ⟨le_refl 0, fun x _ => rfl, hgood⟩
        | intStatic v =>
            have hsz1 : sizeT (Ty.intStatic v) = 1 := rfl
            obtain ⟨f, rfl⟩ : ∃ f, F = f + 1 := ⟨F - 1, by omega⟩
            have e : unify (f + 1) (mapU (ren φ1) (Ty.intStatic v))
                (mapU (ren φ2) (Ty.intStatic v)) st log
                = if v = v then (1, st, log) else (-1, st, log) := rfl
            rw [e, if_pos rfl]
            exact ⟨by show (0 : Int) ≤ 1; decide, fun x _ => rfl, hgood⟩
        | strStatic v =>
            have hsz1 : sizeT (Ty.strStatic v) = 1 := rfl
            obtain ⟨f, rfl⟩ : ∃ f, F = f + 1 := ⟨F - 1, by omega⟩
            have e : unify (f + 1) (mapU (ren φ1) (Ty.strStatic v))
                (mapU (ren φ2) (Ty.strStatic v)) st log
                = if v = v then (1, st, log) else (-1, st, log) := rfl
            rw [e, if_pos rfl]
            exact ⟨by show (0 : Int) ≤ 1; decide, fun x _ => rfl, hgood⟩
        | cls n gs =>
            have hsz : sizeT (Ty.cls n gs) = 1 + sizeTL gs := rfl
            obtain ⟨f, rfl⟩ : ∃ f, F = f + 1 := ⟨F - 1, by omega⟩
            have hocc : occs (Ty.cls n gs) = occsL gs := rfl
            rw [hocc] at hdisj href hgood ⊢
            have hmap1 : mapU (ren φ1) (Ty.cls n gs)
                = Ty.cls n (mapUL (ren φ1) gs) := rfl
            have hmap2 : mapU (ren φ2) (Ty.cls n gs)
                = Ty.cls n (mapUL (ren φ2) gs) := rfl
            rw [hmap1, hmap2]
            have hne1 : ¬(n = "int" ∧ n = "Int") := by
              rintro ⟨rfl, h⟩
              exact absurd h (by decide)
            have hne2 : ¬(n = "Int" ∧ n = "int") := by
              rintro ⟨rfl, h⟩
              exact absurd h (by decide)
            have hlen : (mapUL (ren φ1) gs).length
                = (mapUL (ren φ2) gs).length := by
              rw [mapUL_length, mapUL_length]
            rw [unify_cls_same_name f n _ _ st log hne1 hne2 hlen]
            rcases hU : unifyPairs f (mapUL (ren φ1) gs)
                (mapUL (ren φ2) gs) st log with ⟨os, st2, log2⟩
            have hL := ih.2 gs (by omega) f st log (by omega) hdisj href hgood
            rw [hU] at hL
            obtain ⟨⟨s, hs, hs0⟩, hchg, hgood2⟩ := hL
            have hs' : os = some s := hs
            subst hs'
            refine ⟨?_, ?_, ?_⟩
            · show (0 : Int) ≤ 3 + s
              omega
            · intro x hx
              show st2 x = st x
              exact hchg x hx
            · intro q hq
              exact hgood2 q hq
      · intro gs hsize F st log hF hdisj href hgood
        cases gs with
        | nil =>
            obtain ⟨f, rfl⟩ : ∃ f, F = f + 1 := ⟨F - 1, by omega⟩
            have e : unifyPairs (f + 1) (mapUL (ren φ1) [])
                (mapUL (ren φ2) []) st log = (some 0, st, log) := rfl
            rw [e]
            exact ⟨⟨0, rfl, le_refl 0⟩, fun x _ => rfl, hgood⟩
        | cons x xs =>
            have hsz : sizeTL (x :: xs) = 1 + sizeT x + sizeTL xs := rfl
            have hocc : occsL (x :: xs) = occs x ++ occsL xs := rfl
            obtain ⟨f, rfl⟩ : ∃ f, F = f + 1 := ⟨F - 1, by omega⟩
            rw [hocc] at hdisj href hgood ⊢
            have hmapc1 : mapUL (ren φ1) (x :: xs)
                = mapU (ren φ1) x :: mapUL (ren φ1) xs := rfl
            have hmapc2 : mapUL (ren φ2) (x :: xs)
                = mapU (ren φ2) x :: mapUL (ren φ2) xs := rfl
            rw [hmapc1, hmapc2]
            have hx := ih.1 x (by omega) f st log (by omega)
              (fun p hp q hq => hdisj p (List.mem_append_left _ hp) q
                (List.mem_append_left _ hq))
              (fun p hp q hq => href p (List.mem_append_left _ hp) q
                (List.mem_append_left _ hq))
              (fun p hp => hgood p (List.mem_append_left _ hp))
            rcases hu : unify f (mapU (ren φ1) x) (mapU (ren φ2) x) st log
              with ⟨s1, st1, log1⟩
            rw [hu] at hx
            obtain ⟨hs1, hchg1, hgood1x⟩ := hx
            have hs1' : (0 : Int) ≤ s1 := hs1
            have hchg1' : ∀ y, (∀ p ∈ occs x, (φ1 p.1 p.2).1 ≠ y) →
                st1 y = st y := hchg1
            have hgood1x' : GoodSt φ1 φ2 (occs x) st1 := hgood1x
            have hgoodxs1 : GoodSt φ1 φ2 (occsL xs) st1 := by
              intro q hq
              have hqmem := List.mem_append_right (occs x) hq
              constructor
              · by_cases hhit : ∃ p ∈ occs x,
                    (φ1 p.1 p.2).1 = (φ1 q.1 q.2).1
                · obtain ⟨p, hpm, hpe⟩ := hhit
                  have hφ2 : (φ2 p.1 p.2).1 = (φ2 q.1 q.2).1 :=
                    href p (List.mem_append_left _ hpm) q hqmem hpe
                  have h := (hgood1x' p hpm).1
                  rw [hpe, hφ2] at h
                  exact h
                · have h : st1 (φ1 q.1 q.2).1 = st (φ1 q.1 q.2).1 :=
                    hchg1' _ (fun p hpm hcol => hhit ⟨p, hpm, hcol⟩)
                  rw [h]
                  exact (hgood q hqmem).1
              · have h : st1 (φ2 q.1 q.2).1 = st (φ2 q.1 q.2).1 :=
                  hchg1' _ (fun p hpm hcol =>
                    hdisj p (List.mem_append_left _ hpm) q hqmem hcol)
                rw [h]
                exact (hgood q hqmem).2
            have hxs := ih.2 xs (by omega) f st1 log1 (by omega)
              (fun p hp q hq => hdisj p (List.mem_append_right _ hp) q
                (List.mem_append_right _ hq))
              (fun p hp q hq => href p (List.mem_append_right _ hp) q
                (List.mem_append_right _ hq))
              hgoodxs1
            rcases hup : unifyPairs f (mapUL (ren φ1) xs) (mapUL (ren φ2) xs)
              st1 log1 with ⟨os2, st2, log2⟩
            rw [hup] at hxs
            obtain ⟨⟨s2, hs2, hs20⟩, hchg2, hgood2⟩ := hxs
            have hs2' : os2 = some s2 := hs2
            subst hs2'
            have hchg2' : ∀ y, (∀ p ∈ occsL xs, (φ1 p.1 p.2).1 ≠ y) →
                st2 y = st1 y := hchg2
            have hgood2' : GoodSt φ1 φ2 (occsL xs) st2 := hgood2
            have e : unifyPairs (f + 1) (mapU (ren φ1) x :: mapUL (ren φ1) xs)
                (mapU (ren φ2) x :: mapUL (ren φ2) xs) st log
                = (some (s1 + s2), st2, log2) := by
              rw [unifyPairs_cons_eq, hu]
              show (if s1 = -1 then ((none, st1, log1) : Option Int × USt × ULog)
                  else match unifyPairs f (mapUL (ren φ1) xs)
                      (mapUL (ren φ2) xs) st1 log1 with
                    | (some s3, st3, log3) => (some (s1 + s3), st3, log3)
                    | (none, st3, log3) => (none, st3, log3))
                = (some (s1 + s2), st2, log2)
              rw [if_neg (show ¬s1 = -1 by omega), hup]
            rw [e]
            refine ⟨⟨s1 + s2, rfl, by omega⟩, ?_, ?_⟩
            · intro y hy
              have h2 := hchg2' y (fun p hp =>
                hy p (List.mem_append_right _ hp))
              have h1 := hchg1' y (fun p hp =>
                hy p (List.mem_append_left _ hp))
              show st2 y = st y
              rw [h2, h1]
            · intro q hq
              rcases List.mem_append.mp hq with hqx | hqxs
              · constructor
                · by_cases hhit : ∃ p ∈ occsL xs,
                      (φ1 p.1 p.2).1 = (φ1 q.1 q.2).1
                  · obtain ⟨p, hpm, hpe⟩ := hhit
                    have hφ2 : (φ2 p.1 p.2).1 = (φ2 q.1 q.2).1 :=
                      href p (List.mem_append_right _ hpm) q
                        (List.mem_append_left _ hqx) hpe
                    have h := (hgood2' p hpm).1
                    rw [hpe, hφ2] at h
                    exact h
                  · have h : st2 (φ1 q.1 q.2).1 = st1 (φ1 q.1 q.2).1 :=
                      hchg2' _ (fun p hpm hcol => hhit ⟨p, hpm, hcol⟩)
                    have h2 := (hgood1x' q hqx).1
                    rw [← h] at h2
                    exact h2
                · have h : st2 (φ2 q.1 q.2).1 = st1 (φ2 q.1 q.2).1 :=
                    hchg2' _ (fun p hpm hcol =>
                      hdisj p (List.mem_append_right _ hpm) q
                        (List.mem_append_left _ hqx) hcol)
                  have h2 := (hgood1x' q hqx).2
                  rw [← h] at h2
                  exact h2
              · exact hgood2' q hqxs

/-- C8: the generalize/instantiate round trip.  For every generic-free type
`t`, level `L`, fresh-id floor `C0` above every id of `t`, and enough fuel,
`instantiate L (generalize L t) C0 {}` is structurally isomorphic to a
fresh copy of `t`: it equals `t` with every unbound occurrence at level
≥ `L` renamed by a map `σ` into the fresh range `[C0, C0 + #occurrences)`,
injectively on ids (so repeated occurrences of the same variable stay
aliased) and with occurrences below the level untouched; and it unifies at
score ≥ 0 with a fresh copy of `t` (any renaming `τ` clear of the fresh
range), starting from the empty type graph. -/
theorem C8_generalize_instantiate_roundtrip
    (t : Ty) (L C0 F : Nat) (τ : Nat → Nat)
    (hng : noGeneric t = true)
    (hC0 : ∀ p ∈ occs t, p.1 < C0)
    (hτ : ∀ p ∈ occs t, C0 + (occs t).length ≤ τ p.1)
    (hF : 2 * sizeT t ≤ F) :
    ∃ σ : Nat → Nat,
      (instantiate L (generalize L t) C0 (fun _ => none)).1
        = mapU (fun i l => if L ≤ l then Ty.unbound (σ i) L
            else Ty.unbound i l) t
      ∧ (∀ p ∈ occs t, L ≤ p.2 →
          C0 ≤ σ p.1 ∧ σ p.1 < C0 + (occs t).length)
      ∧ (∀ p ∈ occs t, ∀ q ∈ occs t, L ≤ p.2 → L ≤ q.2 →
          σ p.1 = σ q.1 → p.1 = q.1)
      ∧ 0 ≤ (unify F (instantiate L (generalize L t) C0 (fun _ => none)).1
              (mapU (fun i l => Ty.unbound (τ i) l) t) emptySt []).1 := by
  have hinv0 : CacheInv C0 C0 (fun _ => none) := by
    constructor
    · intro i v hv
      cases hv
    · intro i j v hv hv2
      cases hv
  have hA := (instGen_aux C0 (sizeT t)).1 t (le_refl _) hng L C0
    (fun _ => none) (le_refl C0) hinv0
  obtain ⟨hext, hcle, hcleb, hinvf, hsomef, heqf⟩ := hA
  obtain ⟨κf, hκf⟩ : ∃ κf,
      (instantiate L (generalize L t) C0 (fun _ => none)).2.2 = κf :=
    ⟨_, rfl⟩
  obtain ⟨cf, hcf⟩ : ∃ cf,
      (instantiate L (generalize L t) C0 (fun _ => none)).2.1 = cf :=
    ⟨_, rfl⟩
  rw [hκf] at heqf hsomef
  rw [hκf, hcf] at hinvf
  rw [hcf] at hcleb
  have hσb : ∀ p ∈ occs t, L ≤ p.2 →
      C0 ≤ (κf p.1).getD 0 ∧ (κf p.1).getD 0 < C0 + (occs t).length := by
    intro p hp hpl
    have h := hsomef p hp hpl
    rcases hk : κf p.1 with _ | v
    · rw [hk] at h
      cases h
    · have hb := hinvf.1 p.1 v hk
      show C0 ≤ v ∧ v < C0 + (occs t).length
      omega
  have hσinj : ∀ p ∈ occs t, ∀ q ∈ occs t, L ≤ p.2 → L ≤ q.2 →
      (κf p.1).getD 0 = (κf q.1).getD 0 → p.1 = q.1 := by
    intro p hp q hq hpl hql he
    have h1 := hsomef p hp hpl
    have h2 := hsomef q hq hql
    rcases hk1 : κf p.1 with _ | v1
    · rw [hk1] at h1
      cases h1
    rcases hk2 : κf q.1 with _ | v2
    · rw [hk2] at h2
      cases h2
    rw [hk1, hk2] at he
    have hv : v1 = v2 := he
    exact hinvf.2 p.1 q.1 v1 hk1 (by rw [hv]; exact hk2)
  have hdisjB : ∀ p ∈ occs t, ∀ q ∈ occs t,
      (renL L (fun i => (κf i).getD 0) p.1 p.2).1 ≠ (renR τ q.1 q.2).1 := by
    intro p hp q hq
    show (if L ≤ p.2 then (κf p.1).getD 0 else p.1) ≠ τ q.1
    have hq' := hτ q hq
    by_cases hpl : L ≤ p.2
    · rw [if_pos hpl]
      have h := hσb p hp hpl
      omega
    · rw [if_neg hpl]
      have h := hC0 p hp
      omega
  have hrefB : ∀ p ∈ occs t, ∀ q ∈ occs t,
      (renL L (fun i => (κf i).getD 0) p.1 p.2).1
        = (renL L (fun i => (κf i).getD 0) q.1 q.2).1 →
      (renR τ p.1 p.2).1 = (renR τ q.1 q.2).1 := by
    intro p hp q hq he
    have he' : (if L ≤ p.2 then (κf p.1).getD 0 else p.1)
        = (if L ≤ q.2 then (κf q.1).getD 0 else q.1) := he
    show τ p.1 = τ q.1
    by_cases hpl : L ≤ p.2 <;> by_cases hql : L ≤ q.2
    · rw [if_pos hpl, if_pos hql] at he'
      rw [hσinj p hp q hq hpl hql he']
    · rw [if_pos hpl, if_neg hql] at he'
      have h1 := hσb p hp hpl
      have h2 := hC0 q hq
      omega
    · rw [if_neg hpl, if_pos hql] at he'
      have h1 := hσb q hq hql
      have h2 := hC0 p hp
      omega
    · rw [if_neg hpl, if_neg hql] at he'
      rw [he']
  have hgoodB : GoodSt (renL L (fun i => (κf i).getD 0)) (renR τ)
      (occs t) emptySt := fun p _ => ⟨Or.inl rfl, rfl⟩
  have hB := ((unifyRen_aux (renL L (fun i => (κf i).getD 0)) (renR τ)
      (sizeT t)).1 t (le_refl _) F emptySt [] hF hdisjB hrefB hgoodB).1
  have hc1 : mapU (ren (renL L (fun i => (κf i).getD 0))) t
      = (instantiate L (generalize L t) C0 (fun _ => none)).1 := by
    rw [heqf]
    apply (mapU_congr (sizeT t)).1 t (le_refl _)
    intro p hp
    show Ty.unbound (if L ≤ p.2 then (κf p.1).getD 0 else p.1)
        (if L ≤ p.2 then L else p.2)
      = if L ≤ p.2 then Ty.unbound ((κf p.1).getD 0) L
        else Ty.unbound p.1 p.2
    by_cases hpl : L ≤ p.2
    · rw [if_pos hpl, if_pos hpl, if_pos hpl]
    · rw [if_neg hpl, if_neg hpl, if_neg hpl]
  have hc2 : mapU (ren (renR τ)) t
      = mapU (fun i l => Ty.unbound (τ i) l) t := rfl
  rw [hc1, hc2] at hB
  exact ⟨fun i => (κf i).getD 0, heqf, hσb, hσinj, hB⟩

/-- Witness for C8 at the concrete type `list[u0@5, u0@5]` (one unbound
variable, repeated), level 3, fresh floor 10, fresh copy via `i ↦ i + 100`. -/
theorem C8_generalize_instantiate_roundtrip_witness :
    ∃ σ : Nat → Nat,
      (instantiate 3 (generalize 3 (Ty.cls "list"
          [Ty.unbound 0 5, Ty.unbound 0 5])) 10 (fun _ => none)).1
        = mapU (fun i l => if 3 ≤ l then Ty.unbound (σ i) 3
            else Ty.unbound i l)
          (Ty.cls "list" [Ty.unbound 0 5, Ty.unbound 0 5])
      ∧ (∀ p ∈ occs (Ty.cls "list" [Ty.unbound 0 5, Ty.unbound 0 5]),
          3 ≤ p.2 → 10 ≤ σ p.1 ∧ σ p.1 < 10 +
            (occs (Ty.cls "list" [Ty.unbound 0 5, Ty.unbound 0 5])).length)
      ∧ (∀ p ∈ occs (Ty.cls "list" [Ty.unbound 0 5, Ty.unbound 0 5]),
          ∀ q ∈ occs (Ty.cls "list" [Ty.unbound 0 5, Ty.unbound 0 5]),
          3 ≤ p.2 → 3 ≤ q.2 → σ p.1 = σ q.1 → p.1 = q.1)
      ∧ 0 ≤ (unify 20 (instantiate 3 (generalize 3 (Ty.cls "list"
              [Ty.unbound 0 5, Ty.unbound 0 5])) 10 (fun _ => none)).1
              (mapU (fun i l => Ty.unbound (i + 100) l)
                (Ty.cls "list" [Ty.unbound 0 5, Ty.unbound 0 5]))
              emptySt []).1 :=
  C8_generalize_instantiate_roundtrip
    (Ty.cls "list" [Ty.unbound 0 5, Ty.unbound 0 5]) 3 10 20
    (fun i => i + 100) (by decide) (by decide) (by decide) (by decide)

end Codon
